import Mathlib

/-!
Verification of the record deduplication-and-grouping pipeline
(`src/python/data_splitter.py`).

The embedding models the program state explicitly:

* a `Record` is the dict subclass holding `SEQUENCE_ID`, the row's field
  mapping, and the accumulating `MERGED_SEQUENCE_IDS` list;
* a `Batch` is the insertion-ordered dict mapping sequence id to `Record`
  (Python dicts preserve insertion order, so an association list is the
  faithful model; `Batch.add` is dict assignment, i.e. in-place overwrite
  of an existing key or append of a new one);
* exceptions are modelled by an explicit error component: `Batch.merge`
  returns the batch state reached when the exception is raised, together
  with the error, because the loop in `Batch.merge` mutates the batch
  before a later lookup can fail.
-/

/-- Error kinds raised by the pipeline, named after the spec's error model.
`keyNotFound` is a `KeyError` on a `Batch` lookup or `pop`; `missingField`
is a `KeyError` on a `Record` field lookup. -/
inductive Err where
  | missingInputPath : Err
  | fileReadError : String → Err
  | keyNotFound : String → Err
  | missingField : String → Err
  | serializationError : String → Err
deriving DecidableEq

deriving instance DecidableEq for Except

/-- The field mapping of one CSV row: field name to string value. -/
abbrev Fields := List (String × String)

/-- First-match association lookup, the model of `record[field]` returning
`some` value or (`none`) raising `KeyError`. -/
def lookupField : Fields → String → Option String
  | [], _ => none
  | (k, v) :: rest, f => if k = f then some v else lookupField rest f

/-- The `Record` class: a dict carrying `SEQUENCE_ID` (always overwritten by
the constructor argument), the row's other fields, and the
`MERGED_SEQUENCE_IDS` list. -/
structure Record where
  sequence_id : String
  fields : Fields
  merged_sequence_ids : List String
deriving DecidableEq

/-- `Record.__init__`: stores the dict data, then sets `SEQUENCE_ID` to the
given id and `MERGED_SEQUENCE_IDS` to the empty list.  The constructor
performs no validation of `sequence_id` and cannot fail. -/
def Record.create (sequence_id : String) (fields : Fields) : Record :=
  { sequence_id := sequence_id, fields := fields, merged_sequence_ids := [] }

/-- `Record.merge`: appends the other record's sequence id to this record's
`MERGED_SEQUENCE_IDS` list; nothing else is touched. -/
def Record.merge (r other : Record) : Record :=
  { r with merged_sequence_ids := r.merged_sequence_ids ++ [other.sequence_id] }

/-- The `Batch` class: a dict from sequence id to `Record`, in insertion
order. -/
abbrev Batch := List (String × Record)

/-- The key list of a batch, in dict order. -/
def Batch.keys (b : Batch) : List String := b.map Prod.fst

/-- Dict lookup `batch[sequence_id]` (first matching key). -/
def Batch.find? : Batch → String → Option Record
  | [], _ => none
  | (k, r) :: rest, id => if k = id then some r else Batch.find? rest id

/-- `Batch.add`: dict assignment `self[record.sequence_id] = record` —
overwrites in place if the key exists, otherwise appends.  (The
`isinstance` check cannot fail in the typed embedding.) -/
def Batch.add : Batch → Record → Batch
  | [], r => [(r.sequence_id, r)]
  | (k, r0) :: rest, r =>
    if k = r.sequence_id then (k, r) :: rest else (k, r0) :: Batch.add rest r

/-- `dict.pop(key)`: removes the first entry with the given key and returns
it with the remaining batch, or `none` (`KeyError`) if absent. -/
def Batch.pop : Batch → String → Option (Record × Batch)
  | [], _ => none
  | (k, r) :: rest, id =>
    if k = id then some (r, rest)
    else
      match Batch.pop rest id with
      | none => none
      | some (rec, rest') => some (rec, (k, r) :: rest')

/-- Appending ids to the merged list of the record stored under `main`
(the effect of `main_record.merge` on the batch). -/
def Batch.extendMerged : Batch → String → List String → Batch
  | [], _, _ => []
  | (k, r) :: rest, main, ids =>
    if k = main then
      (k, { r with merged_sequence_ids := r.merged_sequence_ids ++ ids })
        :: Batch.extendMerged rest main ids
    else (k, r) :: Batch.extendMerged rest main ids

/-- Removing every entry whose key lies in `ids`. -/
def Batch.removeIds : Batch → List String → Batch
  | [], _ => []
  | (k, r) :: rest, ids =>
    if k ∈ ids then Batch.removeIds rest ids else (k, r) :: Batch.removeIds rest ids

/-- `Batch.merge(main_record_id, *merge_ids)`: for each merge id in order,
evaluates `self[main_record_id]` (raising `KeyError` if absent), then
`self.pop(merge_id)` (raising `KeyError` if absent), then appends the popped
record's sequence id to the main record's merged list.  The returned pair is
the batch state at return or at the point the exception is raised, together
with the error if one was raised. -/
def Batch.merge : Batch → String → List String → Batch × Option Err
  | b, _, [] => (b, none)
  | b, main, mid :: rest =>
    match b.find? main with
    | none => (b, some (Err.keyNotFound main))
    | some _ =>
      match b.pop mid with
      | none => (b, some (Err.keyNotFound mid))
      | some (popped, b') =>
        Batch.merge (b'.extendMerged main [popped.sequence_id]) main rest

/-- `ADDRESS_FIELDS` from the source. -/
def ADDRESS_FIELDS : List String := ["STREET", "CITY", "ZIP", "COUNTRY"]

/-- `GROUP_BY_FIELDS` from the source. -/
def GROUP_BY_FIELDS : List String := ["GROUP", "COUNTRY"]

/-- `''.join(record[field] for field in fs)`: concatenates the values of the
given fields with no delimiter, failing on the first missing field. -/
def Record.joinFields (r : Record) : List String → Except Err String
  | [] => Except.ok ""
  | f :: fs =>
    match lookupField r.fields f with
    | none => Except.error (Err.missingField f)
    | some v =>
      match Record.joinFields r fs with
      | Except.error e => Except.error e
      | Except.ok s => Except.ok (v ++ s)

/-- The address key of a record: the delimiter-free concatenation of the
`ADDRESS_FIELDS` values. -/
def Record.addressKey (r : Record) : Except Err String :=
  r.joinFields ADDRESS_FIELDS

/-- `tuple(record[field] for field in GROUP_BY_FIELDS)`: the list of group
field values, failing on the first missing field. -/
def Record.fieldValues (r : Record) : List String → Except Err (List String)
  | [] => Except.ok []
  | f :: fs =>
    match lookupField r.fields f with
    | none => Except.error (Err.missingField f)
    | some v =>
      match Record.fieldValues r fs with
      | Except.error e => Except.error e
      | Except.ok vs => Except.ok (v :: vs)

/-- The group key of a record, `(GROUP, COUNTRY)` values in order. -/
def Record.groupKey (r : Record) : Except Err (List String) :=
  r.fieldValues GROUP_BY_FIELDS

/-- Whether an `Except` computation succeeded, as a decidable Boolean. -/
def exceptOk {α : Type} : Except Err α → Bool
  | Except.ok _ => true
  | Except.error _ => false

/-- `set.add` on a list model of a Python set: no-op when present. -/
def addToSet (ids : List String) (id : String) : List String :=
  if id ∈ ids then ids else ids ++ [id]

/-- `addresses[address].add(sequence_id)` on the `defaultdict(set)`:
updates an existing address entry in place or appends a new one. -/
def addrInsert : List (String × List String) → String → String → List (String × List String)
  | [], a, id => [(a, [id])]
  | (k, ids) :: rest, a, id =>
    if k = a then (k, addToSet ids id) :: rest else (k, ids) :: addrInsert rest a id

/-- The address-collection loop: for every entry in batch order, computes
the address key (propagating a missing-field `KeyError`) and files the
sequence id under it. -/
def buildAddrGo : Batch → List (String × List String) → Except Err (List (String × List String))
  | [], acc => Except.ok acc
  | (sid, r) :: rest, acc =>
    match r.addressKey with
    | Except.error e => Except.error e
    | Except.ok a => buildAddrGo rest (addrInsert acc a sid)

/-- The `addresses` mapping built by the first deduplication loop. -/
def Batch.buildAddresses (b : Batch) : Except Err (List (String × List String)) :=
  buildAddrGo b []

/-- Lexicographic comparison of character lists by Unicode code point,
the order Python uses to compare strings. -/
def chLe : List Char → List Char → Bool
  | [], _ => true
  | _ :: _, [] => false
  | a :: as, b :: bs =>
    if a < b then true
    else if a = b then chLe as bs
    else false

/-- Lexicographic string comparison by code point (Python's `<=` on `str`). -/
def strLe (s t : String) : Bool := chLe s.data t.data

/-- `sorted(sequence_ids)`: ascending lexicographic string sort. -/
def sortIds (ids : List String) : List String :=
  List.insertionSort (fun x y => strLe x y = true) ids

/-- The second deduplication loop: for every address with more than one id,
sorts the ids, takes the smallest as the main record and merges the rest
into it; an exception raised by `Batch.merge` aborts the loop. -/
def dedupeMerges : Batch → List (String × List String) → Batch × Option Err
  | b, [] => (b, none)
  | b, (_, ids) :: rest =>
    if ids.length > 1 then
      match sortIds ids with
      | [] => (b, none)
      | main :: mids =>
        match Batch.merge b main mids with
        | (b', none) => dedupeMerges b' rest
        | (b', some e) => (b', some e)
    else dedupeMerges b rest

/-- The whole deduplication stage: build the address map, then merge each
duplicate group; returns the final batch state and the raised error, if
any. -/
def Batch.dedupe (b : Batch) : Batch × Option Err :=
  match b.buildAddresses with
  | Except.error e => (b, some e)
  | Except.ok addrs => dedupeMerges b addrs

/-- `groups[key].add(record)` on the `defaultdict(Batch)`. -/
def groupInsert : List (List String × Batch) → List String → Record → List (List String × Batch)
  | [], k, r => [(k, Batch.add [] r)]
  | (gk, gb) :: rest, k, r =>
    if gk = k then (gk, gb.add r) :: rest else (gk, gb) :: groupInsert rest k r

/-- The grouping loop: for every record in batch order, computes the group
key (propagating a missing-field `KeyError`) and adds the record to that
group's batch. -/
def groupGo : Batch → List (List String × Batch) → Except Err (List (List String × Batch))
  | [], acc => Except.ok acc
  | (_, r) :: rest, acc =>
    match r.groupKey with
    | Except.error e => Except.error e
    | Except.ok k => groupGo rest (groupInsert acc k r)

/-- The grouping stage: partition the batch by `(GROUP, COUNTRY)` values. -/
def Batch.groupBy (b : Batch) : Except Err (List (List String × Batch)) :=
  groupGo b []

/-- A JSON value occurring inside a serialized record: a string field value
or the list of merged sequence ids. -/
inductive JVal where
  | str : String → JVal
  | arr : List String → JVal
deriving DecidableEq

/-- `sep.join(parts)`. -/
def joinSep (sep : String) : List String → String
  | [] => ""
  | [s] => s
  | s :: rest => s ++ sep ++ joinSep sep rest

/-- The indentation produced by `json.dump(..., indent=4)` at the given
nesting level. -/
def spaces : Nat → String
  | 0 => ""
  | n + 1 => "    " ++ spaces n

/-- A JSON string literal.  (Escaping of special characters is outside the
model; field values are taken escape-free.) -/
def quoteStr (s : String) : String := "\"" ++ s ++ "\""

/-- Rendering of one JSON value at the given nesting level, as
`json.dump(..., indent=4)` formats it. -/
def renderJVal (level : Nat) : JVal → String
  | JVal.str s => quoteStr s
  | JVal.arr [] => "[]"
  | JVal.arr (e :: es) =>
    "[\n" ++
      joinSep ",\n" ((e :: es).map (fun s => spaces (level + 1) ++ quoteStr s)) ++
      "\n" ++ spaces level ++ "]"

/-- The dict items of a `Record` as serialized: the row's fields (with the
`SEQUENCE_ID` and `MERGED_SEQUENCE_IDS` slots overwritten by the
constructor-managed values). -/
def Record.jsonItems (r : Record) : List (String × JVal) :=
  (r.fields.filter
      (fun e => !(e.1 == "SEQUENCE_ID") && !(e.1 == "MERGED_SEQUENCE_IDS"))).map
      (fun e => (e.1, JVal.str e.2))
    ++ [("MERGED_SEQUENCE_IDS", JVal.arr r.merged_sequence_ids),
        ("SEQUENCE_ID", JVal.str r.sequence_id)]

/-- `sort_keys=True` applied to a record's items. -/
def sortItems (items : List (String × JVal)) : List (String × JVal) :=
  List.insertionSort (fun x y => strLe x.1 y.1 = true) items

/-- Rendering of one record as a JSON object with sorted keys. -/
def renderRecord (level : Nat) (r : Record) : String :=
  match sortItems r.jsonItems with
  | [] => "\x7b\x7d"
  | items =>
    "\x7b\n" ++
      joinSep ",\n" (items.map
        (fun e => spaces (level + 1) ++ quoteStr e.1 ++ ": " ++ renderJVal (level + 1) e.2)) ++
      "\n" ++ spaces level ++ "\x7d"

/-- `sort_keys=True` applied to the top-level batch dict. -/
def sortByKey (b : Batch) : Batch :=
  List.insertionSort (fun x y => strLe x.1 y.1 = true) b

/-- `json.dump(batch, f, indent=4, sort_keys=True)`: the serialized text of
a batch, with top-level keys in ascending lexicographic order.  The same
function serializes the full deduplicated batch (`final.json`) and each
group batch. -/
def Batch.dumpJson (b : Batch) : String :=
  match sortByKey b with
  | [] => "\x7b\x7d"
  | entries =>
    "\x7b\n" ++
      joinSep ",\n" (entries.map
        (fun e => spaces 1 ++ quoteStr e.1 ++ ": " ++ renderRecord 1 e.2)) ++
      "\n\x7d"

/-- `JSON_EXT` from the source. -/
def JSON_EXT : String := ".json"

/-- `FINAL_JSON_NAME` from the source. -/
def FINAL_JSON_NAME : String := "final" ++ JSON_EXT

/-- The externally supplied circumstances of one invocation: the command
line arguments after the program name, the parsed rows of the input file
(`none` when the file is missing or unreadable), and whether output writes
succeed. -/
structure RunInput where
  argv : List String
  csvRows : Option (List Fields)
  writesSucceed : Bool

/-- The row-reading loop: `batch.add(Record(row['SEQUENCE_ID'], **row))`
for each row, failing with a `KeyError` when a row lacks `SEQUENCE_ID`. -/
def buildBatch : List Fields → Batch → Except Err Batch
  | [], b => Except.ok b
  | row :: rest, b =>
    match lookupField row "SEQUENCE_ID" with
    | none => Except.error (Err.missingField "SEQUENCE_ID")
    | some sid => buildBatch rest (b.add (Record.create sid row))

/-- The pipeline inside the `try` block: read the argument, read and parse
the file, build the batch, deduplicate, write `final.json`, group, write
the per-group files.  Returns the serialized outputs (file name and text)
or the first error raised. -/
def runPipeline (inp : RunInput) : Except Err (String × List (String × String)) :=
  match inp.argv with
  | [] => Except.error Err.missingInputPath
  | path :: _ =>
    match inp.csvRows with
    | none => Except.error (Err.fileReadError path)
    | some rows =>
      match buildBatch rows [] with
      | Except.error e => Except.error e
      | Except.ok batch =>
        match batch.dedupe with
        | (_, some e) => Except.error e
        | (deduped, none) =>
          if inp.writesSucceed then
            match deduped.groupBy with
            | Except.error e => Except.error e
            | Except.ok gs =>
              Except.ok (deduped.dumpJson,
                gs.map (fun p => (joinSep "_" p.1 ++ JSON_EXT, p.2.dumpJson)))
          else Except.error (Err.serializationError FINAL_JSON_NAME)

/-- The `__main__` guard around the pipeline, returning the process exit
status.  An exception propagating out of the `try` block reaches the bare
`except` handler, whose log message is the f-string
`f'Exception occurred while processing {csv_path}'`.  `csv_path` is bound
by the first statement of the `try` block, `csv_path = sys.argv[1]`, so it
is bound exactly when the command line argument was present:

* argument present: the handler logs the exception and swallows it, the
  script falls off the end, and the interpreter exits with status 0 —
  likewise on success;
* argument missing: the `IndexError` is caught, but evaluating the
  f-string raises `NameError` (`csv_path` is unbound) inside the handler;
  that error escapes uncaught and the interpreter exits with status 1. -/
def runMain (inp : RunInput) : Nat :=
  match runPipeline inp with
  | Except.ok _ => 0
  | Except.error _ =>
    match inp.argv with
    | [] => 1
    | _ :: _ => 0

/-! ### Basic lemmas about batch lookup and the primitive mutations -/

theorem Batch.keys_nil : Batch.keys [] = [] := rfl

theorem Batch.keys_cons (e : String × Record) (rest : Batch) :
    Batch.keys (e :: rest) = e.1 :: Batch.keys rest := rfl

theorem Batch.find?_eq_some_mem {b : Batch} {k : String} {r : Record}
    (h : Batch.find? b k = some r) : (k, r) ∈ b := by
  induction b with
  | nil => simp [Batch.find?] at h
  | cons e rest ih =>
    obtain ⟨k0, r0⟩ := e
    by_cases hk : k0 = k
    · subst hk
      simp [Batch.find?] at h
      subst h
      exact List.mem_cons_self _ _
    · simp [Batch.find?, hk] at h
      exact List.mem_cons_of_mem _ (ih h)

theorem Batch.mem_keys_exists_find? {b : Batch} {k : String}
    (h : k ∈ Batch.keys b) : ∃ r, Batch.find? b k = some r := by
  induction b with
  | nil => simp [Batch.keys_nil] at h
  | cons e rest ih =>
    obtain ⟨k0, r0⟩ := e
    by_cases hk : k0 = k
    · exact ⟨r0, by simp [Batch.find?, hk]⟩
    · rw [Batch.keys_cons, List.mem_cons] at h
      rcases h with h | h
      · exact absurd h.symm hk
      · obtain ⟨r, hr⟩ := ih h
        exact ⟨r, by simp [Batch.find?, hk, hr]⟩

theorem Batch.find?_eq_none_of_not_mem {b : Batch} {k : String}
    (h : k ∉ Batch.keys b) : Batch.find? b k = none := by
  induction b with
  | nil => simp [Batch.find?]
  | cons e rest ih =>
    obtain ⟨k0, r0⟩ := e
    rw [Batch.keys_cons, List.mem_cons] at h
    push_neg at h
    simp [Batch.find?, Ne.symm h.1, ih h.2]

theorem Batch.mem_keys_of_find? {b : Batch} {k : String} {r : Record}
    (h : Batch.find? b k = some r) : k ∈ Batch.keys b := by
  have hm := Batch.find?_eq_some_mem h
  exact List.mem_map_of_mem Prod.fst hm

theorem Batch.find?_removeIds (b : Batch) (ids : List String) (k : String) :
    Batch.find? (Batch.removeIds b ids) k =
      if k ∈ ids then none else Batch.find? b k := by
  induction b with
  | nil => simp [Batch.removeIds, Batch.find?]
  | cons e rest ih =>
    obtain ⟨k0, r0⟩ := e
    by_cases hm : k0 ∈ ids
    · by_cases hk : k0 = k
      · subst hk
        simp [Batch.removeIds, hm, ih]
      · simp [Batch.removeIds, hm, Batch.find?, hk, ih]
    · by_cases hk : k0 = k
      · subst hk
        simp [Batch.removeIds, hm, Batch.find?]
      · simp [Batch.removeIds, hm, Batch.find?, hk, ih]

theorem Batch.mem_keys_removeIds {b : Batch} {ids : List String} {k : String} :
    k ∈ Batch.keys (Batch.removeIds b ids) ↔ k ∈ Batch.keys b ∧ k ∉ ids := by
  induction b with
  | nil => simp [Batch.removeIds, Batch.keys_nil]
  | cons e rest ih =>
    obtain ⟨k0, r0⟩ := e
    by_cases hm : k0 ∈ ids
    · rw [Batch.keys_cons, List.mem_cons]
      simp only [Batch.removeIds, if_pos hm]
      rw [ih]
      constructor
      · exact fun h => ⟨Or.inr h.1, h.2⟩
      · rintro ⟨h | h, h2⟩
        · subst h; exact absurd hm h2
        · exact ⟨h, h2⟩
    · simp only [Batch.removeIds, if_neg hm, Batch.keys_cons, List.mem_cons]
      rw [ih]
      constructor
      · rintro (h | h)
        · subst h; exact ⟨Or.inl rfl, hm⟩
        · exact ⟨Or.inr h.1, h.2⟩
      · rintro ⟨h | h, h2⟩
        · exact Or.inl h
        · exact Or.inr ⟨h, h2⟩

theorem Batch.removeIds_sublist (b : Batch) (ids : List String) :
    List.Sublist (Batch.removeIds b ids) b := by
  induction b with
  | nil => simp [Batch.removeIds]
  | cons e rest ih =>
    obtain ⟨k0, r0⟩ := e
    by_cases hm : k0 ∈ ids
    · simp only [Batch.removeIds, if_pos hm]
      exact ih.cons _
    · simp only [Batch.removeIds, if_neg hm]
      exact ih.cons₂ _

theorem Batch.removeIds_nil (b : Batch) : Batch.removeIds b [] = b := by
  induction b with
  | nil => rfl
  | cons e rest ih =>
    obtain ⟨k0, r0⟩ := e
    simp [Batch.removeIds, ih]

theorem Batch.removeIds_removeIds (b : Batch) (l1 l2 : List String) :
    Batch.removeIds (Batch.removeIds b l1) l2 = Batch.removeIds b (l1 ++ l2) := by
  induction b with
  | nil => rfl
  | cons e rest ih =>
    obtain ⟨k0, r0⟩ := e
    by_cases h1 : k0 ∈ l1
    · simp [Batch.removeIds, h1, ih]
    · by_cases h2 : k0 ∈ l2
      · simp [Batch.removeIds, h1, h2, ih]
      · simp [Batch.removeIds, h1, h2, ih]

theorem Batch.find?_extendMerged (b : Batch) (main : String) (ids : List String) (k : String) :
    Batch.find? (Batch.extendMerged b main ids) k =
      if k = main then
        (Batch.find? b k).map
          (fun r => { r with merged_sequence_ids := r.merged_sequence_ids ++ ids })
      else Batch.find? b k := by
  induction b with
  | nil => simp [Batch.extendMerged, Batch.find?]
  | cons e rest ih =>
    obtain ⟨k0, r0⟩ := e
    by_cases hm : k0 = main
    · subst hm
      by_cases hk : k0 = k
      · subst hk
        simp [Batch.extendMerged, Batch.find?]
      · simp [Batch.extendMerged, Batch.find?, hk, Ne.symm hk, ih]
    · by_cases hk : k0 = k
      · subst hk
        simp [Batch.extendMerged, Batch.find?, hm, Ne.symm hm]
      · simp [Batch.extendMerged, Batch.find?, hm, hk, ih]

theorem Batch.keys_extendMerged (b : Batch) (main : String) (ids : List String) :
    Batch.keys (Batch.extendMerged b main ids) = Batch.keys b := by
  induction b with
  | nil => rfl
  | cons e rest ih =>
    obtain ⟨k0, r0⟩ := e
    by_cases hm : k0 = main
    · simp [Batch.extendMerged, hm, Batch.keys_cons, ih]
    · simp [Batch.extendMerged, hm, Batch.keys_cons, ih]

theorem Batch.extendMerged_nil (b : Batch) (main : String) :
    Batch.extendMerged b main [] = b := by
  induction b with
  | nil => rfl
  | cons e rest ih =>
    obtain ⟨k0, r0⟩ := e
    by_cases hm : k0 = main
    · simp [Batch.extendMerged, hm, ih]
    · simp [Batch.extendMerged, hm, ih]

theorem Batch.extendMerged_extendMerged (b : Batch) (main : String) (l1 l2 : List String) :
    Batch.extendMerged (Batch.extendMerged b main l1) main l2 =
      Batch.extendMerged b main (l1 ++ l2) := by
  induction b with
  | nil => rfl
  | cons e rest ih =>
    obtain ⟨k0, r0⟩ := e
    by_cases hm : k0 = main
    · simp [Batch.extendMerged, hm, ih]
    · simp [Batch.extendMerged, hm, ih]

theorem Batch.removeIds_extendMerged (b : Batch) (main : String) (l : List String)
    (ids : List String) :
    Batch.removeIds (Batch.extendMerged b main l) ids =
      Batch.extendMerged (Batch.removeIds b ids) main l := by
  induction b with
  | nil => rfl
  | cons e rest ih =>
    obtain ⟨k0, r0⟩ := e
    by_cases hm : k0 = main
    · subst hm
      by_cases hi : k0 ∈ ids
      · simp [Batch.extendMerged, Batch.removeIds, hi, ih]
      · simp [Batch.extendMerged, Batch.removeIds, hi, ih]
    · by_cases hi : k0 ∈ ids
      · simp [Batch.extendMerged, Batch.removeIds, hm, hi, ih]
      · simp [Batch.extendMerged, Batch.removeIds, hm, hi, ih]

theorem Batch.pop_eq_none {b : Batch} {k : String} (h : k ∉ Batch.keys b) :
    Batch.pop b k = none := by
  induction b with
  | nil => rfl
  | cons e rest ih =>
    obtain ⟨k0, r0⟩ := e
    rw [Batch.keys_cons, List.mem_cons] at h
    push_neg at h
    simp [Batch.pop, Ne.symm h.1, ih h.2]

theorem Batch.removeIds_of_disjoint {b : Batch} {ids : List String}
    (h : ∀ i ∈ ids, i ∉ Batch.keys b) : Batch.removeIds b ids = b := by
  induction b with
  | nil => rfl
  | cons e rest ih =>
    obtain ⟨k0, r0⟩ := e
    have hk0 : k0 ∉ ids := fun hi =>
      (h _ hi) (by rw [Batch.keys_cons]; exact List.mem_cons_self _ _)
    have hrest : ∀ i ∈ ids, i ∉ Batch.keys rest := fun i hi hm =>
      (h i hi) (by rw [Batch.keys_cons]; exact List.mem_cons_of_mem _ hm)
    simp [Batch.removeIds, hk0, ih hrest]

theorem Batch.pop_of_find? {b : Batch} (hkeys : (Batch.keys b).Nodup) {k : String} {r : Record}
    (h : Batch.find? b k = some r) :
    Batch.pop b k = some (r, Batch.removeIds b [k]) := by
  induction b with
  | nil => simp [Batch.find?] at h
  | cons e rest ih =>
    obtain ⟨k0, r0⟩ := e
    rw [Batch.keys_cons, List.nodup_cons] at hkeys
    by_cases hk : k0 = k
    · subst hk
      simp [Batch.find?] at h
      subst h
      have hrest : Batch.removeIds rest [k0] = rest :=
        Batch.removeIds_of_disjoint (by intro i hi; rw [List.mem_singleton] at hi; subst hi; exact hkeys.1)
      simp [Batch.pop, Batch.removeIds, hrest]
    · simp [Batch.find?, hk] at h
      have hp := ih hkeys.2 h
      simp [Batch.pop, hk, hp, Batch.removeIds]

/-! ### Well-formedness transport -/

theorem Batch.keys_nodup_removeIds {b : Batch} {ids : List String}
    (h : (Batch.keys b).Nodup) : (Batch.keys (Batch.removeIds b ids)).Nodup :=
  ((Batch.removeIds_sublist b ids).map Prod.fst).nodup h

theorem Batch.wfSeq_removeIds {b : Batch} {ids : List String}
    (h : ∀ e ∈ b, (e : String × Record).2.sequence_id = e.1) :
    ∀ e ∈ Batch.removeIds b ids, (e : String × Record).2.sequence_id = e.1 :=
  fun e he => h e ((Batch.removeIds_sublist b ids).subset he)

theorem Batch.wfSeq_extendMerged {b : Batch} {main : String} {ids : List String}
    (h : ∀ e ∈ b, (e : String × Record).2.sequence_id = e.1) :
    ∀ e ∈ Batch.extendMerged b main ids, (e : String × Record).2.sequence_id = e.1 := by
  induction b with
  | nil => intro e he; simp [Batch.extendMerged] at he
  | cons f rest ih =>
    obtain ⟨k0, r0⟩ := f
    have h0 := h _ (List.mem_cons_self _ _)
    have hrest : ∀ e ∈ rest, (e : String × Record).2.sequence_id = e.1 :=
      fun e he => h e (List.mem_cons_of_mem _ he)
    intro e he
    by_cases hm : k0 = main
    · simp only [Batch.extendMerged, if_pos hm] at he
      rcases List.mem_cons.mp he with h1 | h1
      · subst h1; exact h0
      · exact ih hrest _ h1
    · simp only [Batch.extendMerged, if_neg hm] at he
      rcases List.mem_cons.mp he with h1 | h1
      · subst h1; exact h0
      · exact ih hrest _ h1

/-! ### Characterization of `Batch.merge` -/

theorem Batch.merge_ok {b : Batch} {main : String} {ids : List String}
    (hwf : ∀ e ∈ b, (e : String × Record).2.sequence_id = e.1)
    (hkeys : (Batch.keys b).Nodup)
    (hmain : main ∈ Batch.keys b)
    (hids : ∀ i ∈ ids, i ∈ Batch.keys b)
    (hnd : ids.Nodup)
    (hmm : main ∉ ids) :
    Batch.merge b main ids =
      (Batch.extendMerged (Batch.removeIds b ids) main ids, none) := by
  induction ids generalizing b with
  | nil => simp [Batch.merge, Batch.removeIds_nil, Batch.extendMerged_nil]
  | cons i rest ih =>
    obtain ⟨rm, hrm⟩ := Batch.mem_keys_exists_find? hmain
    obtain ⟨ri, hri⟩ := Batch.mem_keys_exists_find? (hids i (List.mem_cons_self _ _))
    have hpop := Batch.pop_of_find? hkeys hri
    have hseq : ri.sequence_id = i := hwf _ (Batch.find?_eq_some_mem hri)
    have hmi : main ≠ i := fun hc => hmm (hc ▸ List.mem_cons_self _ _)
    rw [List.nodup_cons] at hnd
    simp only [Batch.merge, hrm, hpop, hseq]
    have hmain1 : main ∈ Batch.keys (Batch.extendMerged (Batch.removeIds b [i]) main [i]) := by
      rw [Batch.keys_extendMerged]
      exact Batch.mem_keys_removeIds.mpr ⟨hmain, by simp [hmi]⟩
    have hids1 : ∀ j ∈ rest, j ∈ Batch.keys (Batch.extendMerged (Batch.removeIds b [i]) main [i]) := by
      intro j hj
      rw [Batch.keys_extendMerged]
      refine Batch.mem_keys_removeIds.mpr ⟨hids j (List.mem_cons_of_mem _ hj), ?_⟩
      simp
      intro hc
      subst hc
      exact hnd.1 hj
    have hwf1 := @Batch.wfSeq_extendMerged (Batch.removeIds b [i]) main [i]
      (Batch.wfSeq_removeIds hwf)
    have hkeys1 : (Batch.keys (Batch.extendMerged (Batch.removeIds b [i]) main [i])).Nodup := by
      rw [Batch.keys_extendMerged]
      exact Batch.keys_nodup_removeIds hkeys
    have hmm1 : main ∉ rest := fun hc => hmm (List.mem_cons_of_mem _ hc)
    rw [ih hwf1 hkeys1 hmain1 hids1 hnd.2 hmm1]
    rw [Batch.removeIds_extendMerged, Batch.removeIds_removeIds,
      Batch.extendMerged_extendMerged]
    rfl

theorem Batch.merge_append (b : Batch) (main : String) (l1 l2 : List String) :
    Batch.merge b main (l1 ++ l2) =
      match Batch.merge b main l1 with
      | (b1, none) => Batch.merge b1 main l2
      | (b1, some e) => (b1, some e) := by
  induction l1 generalizing b with
  | nil => simp [Batch.merge]
  | cons i rest ih =>
    rw [List.cons_append]
    simp only [Batch.merge]
    cases hf : Batch.find? b main with
    | none => simp
    | some rm =>
      cases hp : Batch.pop b i with
      | none => simp
      | some pr =>
        obtain ⟨popped, b1⟩ := pr
        simp [ih]

theorem Batch.merge_main_absent {b : Batch} {main : String} {ids : List String}
    (hne : ids ≠ []) (h : main ∉ Batch.keys b) :
    Batch.merge b main ids = (b, some (Err.keyNotFound main)) := by
  cases ids with
  | nil => exact absurd rfl hne
  | cons i rest => simp [Batch.merge, Batch.find?_eq_none_of_not_mem h]

theorem Batch.merge_stops_at_absent {b : Batch} {main bad : String} {pre post : List String}
    (hwf : ∀ e ∈ b, (e : String × Record).2.sequence_id = e.1)
    (hkeys : (Batch.keys b).Nodup)
    (hmain : main ∈ Batch.keys b)
    (hpre : ∀ i ∈ pre, i ∈ Batch.keys b)
    (hnd : pre.Nodup)
    (hmm : main ∉ pre)
    (hbad : bad ∉ Batch.keys b) :
    Batch.merge b main (pre ++ bad :: post) =
      (Batch.extendMerged (Batch.removeIds b pre) main pre,
        some (Err.keyNotFound bad)) := by
  rw [Batch.merge_append, Batch.merge_ok hwf hkeys hmain hpre hnd hmm]
  have hmain1 : main ∈ Batch.keys (Batch.extendMerged (Batch.removeIds b pre) main pre) := by
    rw [Batch.keys_extendMerged]
    exact Batch.mem_keys_removeIds.mpr ⟨hmain, hmm⟩
  obtain ⟨rm, hrm⟩ := Batch.mem_keys_exists_find? hmain1
  have hbad1 : bad ∉ Batch.keys (Batch.extendMerged (Batch.removeIds b pre) main pre) := by
    rw [Batch.keys_extendMerged]
    intro hc
    exact hbad (Batch.mem_keys_removeIds.mp hc).1
  simp [Batch.merge, hrm, Batch.pop_eq_none hbad1]

theorem Batch.merge_error_of_absent {b : Batch} {main : String} {ids : List String}
    (hwf : ∀ e ∈ b, (e : String × Record).2.sequence_id = e.1)
    (hkeys : (Batch.keys b).Nodup)
    (hmain : main ∈ Batch.keys b)
    (hnd : ids.Nodup)
    (hmm : main ∉ ids)
    (habs : ∃ i ∈ ids, i ∉ Batch.keys b) :
    ∃ j, j ∈ ids ∧ j ∉ Batch.keys b ∧
      (Batch.merge b main ids).2 = some (Err.keyNotFound j) := by
  induction ids generalizing b with
  | nil => simp at habs
  | cons i rest ih =>
    obtain ⟨rm, hrm⟩ := Batch.mem_keys_exists_find? hmain
    rw [List.nodup_cons] at hnd
    have hmi : main ≠ i := fun hc => hmm (hc ▸ List.mem_cons_self _ _)
    have hmm1 : main ∉ rest := fun hc => hmm (List.mem_cons_of_mem _ hc)
    by_cases hi : i ∈ Batch.keys b
    · obtain ⟨ri, hri⟩ := Batch.mem_keys_exists_find? hi
      have hpop := Batch.pop_of_find? hkeys hri
      have hseq : ri.sequence_id = i := hwf _ (Batch.find?_eq_some_mem hri)
      simp only [Batch.merge, hrm, hpop, hseq]
      have hmain1 : main ∈ Batch.keys (Batch.extendMerged (Batch.removeIds b [i]) main [i]) := by
        rw [Batch.keys_extendMerged]
        exact Batch.mem_keys_removeIds.mpr ⟨hmain, by simp [hmi]⟩
      have hwf1 := @Batch.wfSeq_extendMerged (Batch.removeIds b [i]) main [i]
        (Batch.wfSeq_removeIds hwf)
      have hkeys1 : (Batch.keys (Batch.extendMerged (Batch.removeIds b [i]) main [i])).Nodup := by
        rw [Batch.keys_extendMerged]
        exact Batch.keys_nodup_removeIds hkeys
      have habs1 : ∃ j ∈ rest, j ∉ Batch.keys (Batch.extendMerged (Batch.removeIds b [i]) main [i]) := by
        obtain ⟨j, hj, hjabs⟩ := habs
        rcases List.mem_cons.mp hj with hj0 | hj0
        · exact absurd (hj0 ▸ hi) hjabs
        · refine ⟨j, hj0, ?_⟩
          rw [Batch.keys_extendMerged]
          intro hc
          exact hjabs (Batch.mem_keys_removeIds.mp hc).1
      obtain ⟨j, hj, hjabs, hjres⟩ := ih hwf1 hkeys1 hmain1 hnd.2 hmm1 habs1
      refine ⟨j, List.mem_cons_of_mem _ hj, ?_, hjres⟩
      intro hc
      apply hjabs
      rw [Batch.keys_extendMerged]
      refine Batch.mem_keys_removeIds.mpr ⟨hc, ?_⟩
      simp
      intro hji
      subst hji
      exact hnd.1 hj
    · refine ⟨i, List.mem_cons_self _ _, hi, ?_⟩
      simp [Batch.merge, hrm, Batch.pop_eq_none hi]

/-! ### The lexicographic string order used by `sorted` -/

theorem chLe_cons_iff {a b : Char} {as bs : List Char} :
    chLe (a :: as) (b :: bs) = true ↔
      (a < b ∨ (a = b ∧ chLe as bs = true)) := by
  show (if a < b then true else if a = b then chLe as bs else false) = true ↔ _
  split_ifs with h1 h2
  · simp [h1]
  · simp [h1, h2]
  · simp [h1, h2]

theorem chLe_refl : ∀ as : List Char, chLe as as = true
  | [] => rfl
  | a :: as => chLe_cons_iff.mpr (Or.inr ⟨rfl, chLe_refl as⟩)

theorem chLe_total : ∀ as bs : List Char, chLe as bs = true ∨ chLe bs as = true
  | [], _ => Or.inl rfl
  | _ :: _, [] => Or.inr rfl
  | a :: as, b :: bs => by
    rcases lt_trichotomy a b with h | h | h
    · exact Or.inl (chLe_cons_iff.mpr (Or.inl h))
    · rcases chLe_total as bs with ih | ih
      · exact Or.inl (chLe_cons_iff.mpr (Or.inr ⟨h, ih⟩))
      · exact Or.inr (chLe_cons_iff.mpr (Or.inr ⟨h.symm, ih⟩))
    · exact Or.inr (chLe_cons_iff.mpr (Or.inl h))

theorem chLe_trans : ∀ {as bs cs : List Char},
    chLe as bs = true → chLe bs cs = true → chLe as cs = true
  | [], _, _, _, _ => rfl
  | _ :: _, [], _, h, _ => by simp [chLe] at h
  | _ :: _, _ :: _, [], _, h => by simp [chLe] at h
  | a :: as, b :: bs, c :: cs, h1, h2 => by
    rw [chLe_cons_iff] at h1 h2 ⊢
    rcases h1 with h1 | ⟨h1e, h1r⟩
    · rcases h2 with h2 | ⟨h2e, h2r⟩
      · exact Or.inl (lt_trans h1 h2)
      · exact Or.inl (h2e ▸ h1)
    · rcases h2 with h2 | ⟨h2e, h2r⟩
      · exact Or.inl (h1e ▸ h2)
      · exact Or.inr ⟨h1e.trans h2e, chLe_trans h1r h2r⟩

theorem chLe_antisymm : ∀ {as bs : List Char},
    chLe as bs = true → chLe bs as = true → as = bs
  | [], [], _, _ => rfl
  | [], _ :: _, _, h2 => by simp [chLe] at h2
  | _ :: _, [], h1, _ => by simp [chLe] at h1
  | a :: as, b :: bs, h1, h2 => by
    rw [chLe_cons_iff] at h1 h2
    rcases h1 with h1 | ⟨h1e, h1r⟩
    · rcases h2 with h2 | ⟨h2e, h2r⟩
      · exact absurd h2 (lt_asymm h1)
      · exact absurd h1 (h2e ▸ lt_irrefl b)
    · rcases h2 with h2 | ⟨h2e, h2r⟩
      · exact absurd h2 (h1e ▸ lt_irrefl a)
      · subst h1e
        rw [chLe_antisymm h1r h2r]

theorem strLe_refl (s : String) : strLe s s = true := chLe_refl _

theorem strLe_total (s t : String) : strLe s t = true ∨ strLe t s = true :=
  chLe_total _ _

theorem strLe_trans {s t u : String} (h1 : strLe s t = true) (h2 : strLe t u = true) :
    strLe s u = true :=
  chLe_trans h1 h2

theorem strLe_antisymm {s t : String} (h1 : strLe s t = true) (h2 : strLe t s = true) :
    s = t := by
  cases s with
  | mk as =>
    cases t with
    | mk bs =>
      exact congrArg String.mk (chLe_antisymm h1 h2)

instance : IsTotal String (fun x y => strLe x y = true) := ⟨strLe_total⟩

instance : IsTrans String (fun x y => strLe x y = true) :=
  ⟨fun _ _ _ h1 h2 => strLe_trans h1 h2⟩

instance : IsTotal (String × Record) (fun x y => strLe x.1 y.1 = true) :=
  ⟨fun a b => strLe_total a.1 b.1⟩

instance : IsTrans (String × Record) (fun x y => strLe x.1 y.1 = true) :=
  ⟨fun _ _ _ h1 h2 => strLe_trans h1 h2⟩

instance : IsAntisymm (String × Record) (fun x y => strLe x.1 y.1 = true ∧ x.1 ≠ y.1) :=
  ⟨fun a b h1 h2 => absurd (strLe_antisymm h1.1 h2.1) h1.2⟩

theorem sortIds_sorted (ids : List String) :
    List.Sorted (fun x y => strLe x y = true) (sortIds ids) :=
  List.sorted_insertionSort _ _

theorem sortIds_perm (ids : List String) : List.Perm (sortIds ids) ids :=
  List.perm_insertionSort _ _

/-! ### The address classes built by the first deduplication loop -/

/-- The sequence ids of the records of `b` whose address key is `a`, in
batch order. -/
def clsIds : Batch → String → List String
  | [], _ => []
  | (k, r) :: rest, a =>
    if r.addressKey = Except.ok a then k :: clsIds rest a else clsIds rest a

/-- Lookup in the address (or group) multimap. -/
def lookupM : List (String × List String) → String → Option (List String)
  | [], _ => none
  | (k, ids) :: rest, a => if k = a then some ids else lookupM rest a

/-- The keys of a multimap. -/
def mKeys (m : List (String × List String)) : List String := m.map Prod.fst

theorem mKeys_nil : mKeys [] = [] := rfl

theorem mKeys_cons (e : String × List String) (rest : List (String × List String)) :
    mKeys (e :: rest) = e.1 :: mKeys rest := rfl

theorem Batch.mem_unique {b : Batch} (hkeys : (Batch.keys b).Nodup) {k : String}
    {r1 r2 : Record} (h1 : (k, r1) ∈ b) (h2 : (k, r2) ∈ b) : r1 = r2 := by
  induction b with
  | nil => simp at h1
  | cons e rest ih =>
    obtain ⟨k0, r0⟩ := e
    rw [Batch.keys_cons, List.nodup_cons] at hkeys
    rcases List.mem_cons.mp h1 with h1 | h1
    · rcases List.mem_cons.mp h2 with h2 | h2
      · rw [Prod.mk.injEq] at h1 h2
        rw [h1.2, h2.2]
      · exfalso
        apply hkeys.1
        rw [Prod.mk.injEq] at h1
        show k0 ∈ Batch.keys rest
        rw [← h1.1]
        exact List.mem_map_of_mem Prod.fst h2
    · rcases List.mem_cons.mp h2 with h2 | h2
      · exfalso
        apply hkeys.1
        rw [Prod.mk.injEq] at h2
        show k0 ∈ Batch.keys rest
        rw [← h2.1]
        exact List.mem_map_of_mem Prod.fst h1
      · exact ih hkeys.2 h1 h2

theorem clsIds_sublist_keys (b : Batch) (a : String) :
    List.Sublist (clsIds b a) (Batch.keys b) := by
  induction b with
  | nil => simp [clsIds, Batch.keys_nil]
  | cons e rest ih =>
    obtain ⟨k0, r0⟩ := e
    by_cases hc : r0.addressKey = Except.ok a
    · simp only [clsIds, if_pos hc, Batch.keys_cons]
      exact ih.cons₂ _
    · simp only [clsIds, if_neg hc, Batch.keys_cons]
      exact ih.cons _

theorem clsIds_nodup {b : Batch} (hkeys : (Batch.keys b).Nodup) (a : String) :
    (clsIds b a).Nodup :=
  (clsIds_sublist_keys b a).nodup hkeys

theorem mem_mKeys_of_mem {m : List (String × List String)} {x : String}
    {ids : List String} (h : (x, ids) ∈ m) : x ∈ mKeys m :=
  List.mem_map_of_mem Prod.fst h

theorem mem_clsIds_iff {b : Batch} {a k : String} :
    k ∈ clsIds b a ↔ ∃ r, (k, r) ∈ b ∧ r.addressKey = Except.ok a := by
  induction b with
  | nil => simp [clsIds]
  | cons e rest ih =>
    obtain ⟨k0, r0⟩ := e
    by_cases hc : r0.addressKey = Except.ok a
    · simp only [clsIds, if_pos hc, List.mem_cons]
      rw [ih]
      constructor
      · rintro (h | ⟨r, hr, hra⟩)
        · exact ⟨r0, Or.inl (by rw [h]), hc⟩
        · exact ⟨r, Or.inr hr, hra⟩
      · rintro ⟨r, hr, hra⟩
        rcases hr with hr | hr
        · rw [Prod.mk.injEq] at hr
          exact Or.inl hr.1
        · exact Or.inr ⟨r, hr, hra⟩
    · simp only [clsIds, if_neg hc]
      rw [ih]
      constructor
      · rintro ⟨r, hr, hra⟩
        exact ⟨r, List.mem_cons_of_mem _ hr, hra⟩
      · rintro ⟨r, hr, hra⟩
        rcases List.mem_cons.mp hr with hr | hr
        · rw [Prod.mk.injEq] at hr
          exact absurd (hr.2 ▸ hra) hc
        · exact ⟨r, hr, hra⟩

theorem clsIds_disjoint {b : Batch} (hkeys : (Batch.keys b).Nodup) {a1 a2 : String}
    (hne : a1 ≠ a2) {k : String} (h1 : k ∈ clsIds b a1) : k ∉ clsIds b a2 := by
  intro h2
  obtain ⟨r1, hr1, hra1⟩ := mem_clsIds_iff.mp h1
  obtain ⟨r2, hr2, hra2⟩ := mem_clsIds_iff.mp h2
  have := Batch.mem_unique hkeys hr1 hr2
  subst this
  rw [hra1] at hra2
  exact hne (Except.ok.inj hra2)

theorem lookupM_mem {m : List (String × List String)} {x : String} {ids : List String}
    (h : lookupM m x = some ids) : (x, ids) ∈ m := by
  induction m with
  | nil => simp [lookupM] at h
  | cons e rest ih =>
    obtain ⟨k0, ids0⟩ := e
    by_cases hk : k0 = x
    · subst hk
      simp [lookupM] at h
      subst h
      exact List.mem_cons_self _ _
    · simp [lookupM, hk] at h
      exact List.mem_cons_of_mem _ (ih h)

theorem lookupM_of_mem_nodup {m : List (String × List String)} {x : String}
    {ids : List String} (hnd : (mKeys m).Nodup) (h : (x, ids) ∈ m) :
    lookupM m x = some ids := by
  induction m with
  | nil => simp at h
  | cons e rest ih =>
    obtain ⟨k0, ids0⟩ := e
    rw [mKeys_cons, List.nodup_cons] at hnd
    rcases List.mem_cons.mp h with h | h
    · rw [Prod.mk.injEq] at h
      simp [lookupM, h.1, h.2]
    · have hk : k0 ≠ x := by
        intro hc
        subst hc
        exact hnd.1 (mem_mKeys_of_mem h)
      simp [lookupM, hk, ih hnd.2 h]

theorem addrInsert_lookup (acc : List (String × List String)) (a id x : String) :
    lookupM (addrInsert acc a id) x =
      if x = a then some (addToSet ((lookupM acc a).getD []) id)
      else lookupM acc x := by
  induction acc with
  | nil =>
    by_cases hx : x = a
    · simp [addrInsert, lookupM, hx, addToSet]
    · simp [addrInsert, lookupM, hx, Ne.symm hx]
  | cons e rest ih =>
    obtain ⟨k0, ids0⟩ := e
    by_cases hk : k0 = a
    · subst hk
      by_cases hx : x = k0
      · subst hx
        simp [addrInsert, lookupM]
      · simp [addrInsert, lookupM, Ne.symm hx, hx]
    · by_cases hx : x = k0
      · subst hx
        simp [addrInsert, lookupM, hk, ih, Ne.symm hk]
      · simp [addrInsert, lookupM, hk, Ne.symm hx, ih]

theorem addrInsert_pos (ids0 : List String) (rest : List (String × List String))
    (a id : String) :
    addrInsert ((a, ids0) :: rest) a id = (a, addToSet ids0 id) :: rest := by
  simp [addrInsert]

theorem addrInsert_neg {k0 : String} (ids0 : List String)
    (rest : List (String × List String)) {a : String} (id : String) (hk : k0 ≠ a) :
    addrInsert ((k0, ids0) :: rest) a id = (k0, ids0) :: addrInsert rest a id := by
  simp [addrInsert, hk]

theorem mem_mKeys_addrInsert {acc : List (String × List String)} {a id x : String} :
    x ∈ mKeys (addrInsert acc a id) ↔ x ∈ mKeys acc ∨ x = a := by
  induction acc with
  | nil => simp [addrInsert, mKeys]
  | cons e rest ih =>
    obtain ⟨k0, ids0⟩ := e
    by_cases hk : k0 = a
    · subst hk
      rw [addrInsert_pos, mKeys_cons, mKeys_cons]
      constructor
      · exact fun h => Or.inl h
      · rintro (h | h)
        · exact h
        · rw [h]
          exact List.mem_cons_self _ _
    · rw [addrInsert_neg ids0 rest id hk, mKeys_cons, mKeys_cons, List.mem_cons,
        List.mem_cons, ih]
      tauto

theorem mKeys_nodup_addrInsert {acc : List (String × List String)} {a id : String}
    (hnd : (mKeys acc).Nodup) : (mKeys (addrInsert acc a id)).Nodup := by
  induction acc with
  | nil => simp [addrInsert, mKeys]
  | cons e rest ih =>
    obtain ⟨k0, ids0⟩ := e
    rw [mKeys_cons, List.nodup_cons] at hnd
    by_cases hk : k0 = a
    · subst hk
      rw [addrInsert_pos, mKeys_cons, List.nodup_cons]
      exact ⟨hnd.1, hnd.2⟩
    · rw [addrInsert_neg ids0 rest id hk, mKeys_cons, List.nodup_cons]
      refine ⟨?_, ih hnd.2⟩
      intro hc
      rcases mem_mKeys_addrInsert.mp hc with h | h
      · exact hnd.1 h
      · exact hk h

theorem exceptOk_exists {α : Type} {x : Except Err α} (h : exceptOk x = true) :
    ∃ a, x = Except.ok a := by
  cases x with
  | ok a => exact ⟨a, rfl⟩
  | error e => simp [exceptOk] at h

theorem mem_addToSet {ids : List String} {id i : String} (h : i ∈ addToSet ids id) :
    i ∈ ids ∨ i = id := by
  unfold addToSet at h
  by_cases hm : id ∈ ids
  · rw [if_pos hm] at h
    exact Or.inl h
  · rw [if_neg hm] at h
    rcases List.mem_append.mp h with h | h
    · exact Or.inl h
    · exact Or.inr (List.mem_singleton.mp h)

theorem addToSet_eq_append {ids : List String} {id : String} (h : id ∉ ids) :
    addToSet ids id = ids ++ [id] := by
  unfold addToSet
  rw [if_neg h]

theorem mem_ids_addrInsert {acc : List (String × List String)} {a id : String}
    {p : String × List String} (hp : p ∈ addrInsert acc a id) {i : String}
    (hi : i ∈ p.2) :
    (∃ q ∈ acc, i ∈ (q : String × List String).2) ∨ i = id := by
  induction acc with
  | nil =>
    simp [addrInsert] at hp
    subst hp
    simp at hi
    exact Or.inr hi
  | cons e rest ih =>
    obtain ⟨k0, ids0⟩ := e
    by_cases hk : k0 = a
    · subst hk
      rw [addrInsert_pos] at hp
      rcases List.mem_cons.mp hp with hp | hp
      · subst hp
        rcases mem_addToSet hi with h | h
        · exact Or.inl ⟨(k0, ids0), List.mem_cons_self _ _, h⟩
        · exact Or.inr h
      · exact Or.inl ⟨p, List.mem_cons_of_mem _ hp, hi⟩
    · rw [addrInsert_neg ids0 rest id hk] at hp
      rcases List.mem_cons.mp hp with hp | hp
      · subst hp
        exact Or.inl ⟨(k0, ids0), List.mem_cons_self _ _, hi⟩
      · rcases ih hp with h | h
        · obtain ⟨q, hq, hqi⟩ := h
          exact Or.inl ⟨q, List.mem_cons_of_mem _ hq, hqi⟩
        · exact Or.inr h

theorem buildAddrGo_spec (b : Batch) :
    ∀ (acc : List (String × List String)),
    (Batch.keys b).Nodup →
    (∀ e ∈ b, exceptOk (e : String × Record).2.addressKey = true) →
    (∀ p ∈ acc, ∀ i ∈ (p : String × List String).2, i ∉ Batch.keys b) →
    (mKeys acc).Nodup →
    ∃ addrs, buildAddrGo b acc = Except.ok addrs ∧ (mKeys addrs).Nodup ∧
      ∀ x, lookupM addrs x =
        match lookupM acc x with
        | some ids => some (ids ++ clsIds b x)
        | none => if clsIds b x = [] then none else some (clsIds b x) := by
  induction b with
  | nil =>
    intro acc _ _ _ hnd
    refine ⟨acc, rfl, hnd, ?_⟩
    intro x
    cases h : lookupM acc x with
    | none => simp [clsIds]
    | some ids => simp [clsIds]
  | cons e rest ih =>
    obtain ⟨sid, r⟩ := e
    intro acc hkeys hok hfresh hnd
    obtain ⟨a, ha⟩ := exceptOk_exists (hok _ (List.mem_cons_self _ _))
    rw [Batch.keys_cons, List.nodup_cons] at hkeys
    have hstep : buildAddrGo ((sid, r) :: rest) acc =
        buildAddrGo rest (addrInsert acc a sid) := by
      simp [buildAddrGo, ha]
    have hok1 : ∀ e ∈ rest, exceptOk (e : String × Record).2.addressKey = true :=
      fun e he => hok e (List.mem_cons_of_mem _ he)
    have hfresh1 : ∀ p ∈ addrInsert acc a sid, ∀ i ∈ (p : String × List String).2,
        i ∉ Batch.keys rest := by
      intro p hp i hi hc
      rcases mem_ids_addrInsert hp hi with h | h
      · obtain ⟨q, hq, hqi⟩ := h
        exact hfresh q hq i hqi (by rw [Batch.keys_cons]; exact List.mem_cons_of_mem _ hc)
      · subst h
        exact hkeys.1 hc
    have hnd1 := @mKeys_nodup_addrInsert acc a sid hnd
    obtain ⟨addrs, hrun, hand, hlook⟩ := ih (addrInsert acc a sid) hkeys.2 hok1 hfresh1 hnd1
    refine ⟨addrs, by rw [hstep, hrun], hand, ?_⟩
    intro x
    rw [hlook x, addrInsert_lookup]
    by_cases hx : x = a
    · subst hx
      rw [if_pos rfl]
      have hcls : clsIds ((sid, r) :: rest) x = sid :: clsIds rest x := by
        simp [clsIds, ha]
      rw [hcls]
      cases hacc : lookupM acc x with
      | none => simp [addToSet]
      | some ids =>
        have hmem := lookupM_mem hacc
        have hsid : sid ∉ ids := fun hc =>
          hfresh _ hmem sid hc (by rw [Batch.keys_cons]; exact List.mem_cons_self _ _)
        simp [addToSet_eq_append hsid]
    · rw [if_neg hx]
      have hcls : clsIds ((sid, r) :: rest) x = clsIds rest x := by
        have hne : ¬ (r.addressKey = Except.ok x) := by
          rw [ha]
          intro hc
          exact hx (Except.ok.inj hc).symm
        simp [clsIds, hne]
      rw [hcls]

theorem buildAddresses_spec {b : Batch}
    (hkeys : (Batch.keys b).Nodup)
    (hok : ∀ e ∈ b, exceptOk (e : String × Record).2.addressKey = true) :
    ∃ addrs, Batch.buildAddresses b = Except.ok addrs ∧ (mKeys addrs).Nodup ∧
      ∀ x, lookupM addrs x = if clsIds b x = [] then none else some (clsIds b x) := by
  obtain ⟨addrs, hrun, hnd, hlook⟩ :=
    buildAddrGo_spec b [] hkeys hok (by simp) (by simp [mKeys])
  refine ⟨addrs, hrun, hnd, ?_⟩
  intro x
  have h := hlook x
  simpa [lookupM] using h

/-! ### Characterization of the merge loop over the address classes -/

/-- The first id set in the address map that contains `k`. -/
def classOf : List (String × List String) → String → Option (List String)
  | [], _ => none
  | (_, ids) :: rest, k => if k ∈ ids then some ids else classOf rest k

/-- The record stored under `k` after the merge loop has processed the
given address map, expressed in terms of the input batch. -/
def dedupeValue (b : Batch) (addrs : List (String × List String)) (k : String) :
    Option Record :=
  match classOf addrs k with
  | none => Batch.find? b k
  | some ids =>
    if ids.length > 1 then
      match sortIds ids with
      | [] => Batch.find? b k
      | m :: mids =>
        if k = m then
          (Batch.find? b k).map
            (fun r => { r with merged_sequence_ids := r.merged_sequence_ids ++ mids })
        else none
    else Batch.find? b k

theorem classOf_eq_none {addrs : List (String × List String)} {k : String}
    (h : ∀ p ∈ addrs, k ∉ (p : String × List String).2) : classOf addrs k = none := by
  induction addrs with
  | nil => rfl
  | cons p rest ih =>
    obtain ⟨a0, ids0⟩ := p
    have h0 : k ∉ ids0 := h _ (List.mem_cons_self _ _)
    simp only [classOf, if_neg h0]
    exact ih fun p hp => h p (List.mem_cons_of_mem _ hp)

theorem dedupeValue_congr {b1 b2 : Batch} {addrs : List (String × List String)}
    {k : String} (h : Batch.find? b1 k = Batch.find? b2 k) :
    dedupeValue b1 addrs k = dedupeValue b2 addrs k := by
  unfold dedupeValue
  rw [h]

theorem dedupeValue_cons_not_mem {b : Batch} {a : String} {ids : List String}
    {rest : List (String × List String)} {k : String} (hk : k ∉ ids) :
    dedupeValue b ((a, ids) :: rest) k = dedupeValue b rest k := by
  unfold dedupeValue
  simp only [classOf, if_neg hk]

theorem dedupeMerges_spec {addrs : List (String × List String)} :
    ∀ {b : Batch},
    (∀ e ∈ b, (e : String × Record).2.sequence_id = e.1) →
    (Batch.keys b).Nodup →
    (∀ p ∈ addrs, ∀ i ∈ (p : String × List String).2, i ∈ Batch.keys b) →
    (∀ p ∈ addrs, (p : String × List String).2.Nodup) →
    List.Pairwise (fun p q => ∀ i ∈ p.2, i ∉ q.2) addrs →
    (dedupeMerges b addrs).2 = none ∧
      ∀ k, Batch.find? (dedupeMerges b addrs).1 k = dedupeValue b addrs k := by
  induction addrs with
  | nil =>
    intro b _ _ _ _ _
    exact ⟨rfl, fun k => rfl⟩
  | cons p rest ih =>
    obtain ⟨a, ids⟩ := p
    intro b hwf hkeys hsub hndcls hdisj
    rw [List.pairwise_cons] at hdisj
    have hsub0 : ∀ i ∈ ids, i ∈ Batch.keys b :=
      fun i hi => hsub _ (List.mem_cons_self _ _) i hi
    have hnd0 : ids.Nodup := hndcls _ (List.mem_cons_self _ _)
    have hsub1 : ∀ p ∈ rest, ∀ i ∈ (p : String × List String).2, i ∈ Batch.keys b :=
      fun p hp => hsub p (List.mem_cons_of_mem _ hp)
    have hndcls1 : ∀ p ∈ rest, (p : String × List String).2.Nodup :=
      fun p hp => hndcls p (List.mem_cons_of_mem _ hp)
    by_cases hlen : ids.length > 1
    · have hperm := sortIds_perm ids
      obtain ⟨m, mids, hsort⟩ : ∃ m mids, sortIds ids = m :: mids := by
        cases hs : sortIds ids with
        | nil =>
          have := hperm.length_eq
          rw [hs] at this
          simp at this
          omega
        | cons m mids => exact ⟨m, mids, rfl⟩
      have hsortnd : (m :: mids).Nodup := by
        rw [← hsort]
        exact hperm.nodup_iff.mpr hnd0
      rw [List.nodup_cons] at hsortnd
      have hmemids : ∀ j ∈ m :: mids, j ∈ ids := by
        intro j hj
        apply hperm.subset
        rw [hsort]
        exact hj
      have hmain : m ∈ Batch.keys b := hsub0 m (hmemids m (List.mem_cons_self _ _))
      have hmids : ∀ i ∈ mids, i ∈ Batch.keys b :=
        fun i hi => hsub0 i (hmemids i (List.mem_cons_of_mem _ hi))
      have hmrg := Batch.merge_ok hwf hkeys hmain hmids hsortnd.2 hsortnd.1
      have hstep : dedupeMerges b ((a, ids) :: rest) =
          dedupeMerges (Batch.extendMerged (Batch.removeIds b mids) m mids) rest := by
        simp only [dedupeMerges, if_pos hlen, hsort, hmrg]
      have hwf1 := @Batch.wfSeq_extendMerged (Batch.removeIds b mids) m mids
        (Batch.wfSeq_removeIds hwf)
      have hkeys1 : (Batch.keys (Batch.extendMerged (Batch.removeIds b mids) m mids)).Nodup := by
        rw [Batch.keys_extendMerged]
        exact Batch.keys_nodup_removeIds hkeys
      have hsub2 : ∀ p ∈ rest, ∀ i ∈ (p : String × List String).2,
          i ∈ Batch.keys (Batch.extendMerged (Batch.removeIds b mids) m mids) := by
        intro p hp i hi
        rw [Batch.keys_extendMerged]
        refine Batch.mem_keys_removeIds.mpr ⟨hsub1 p hp i hi, ?_⟩
        intro hc
        exact hdisj.1 p hp i (hmemids i (List.mem_cons_of_mem _ hc)) hi
      obtain ⟨hsnd, hval⟩ := ih hwf1 hkeys1 hsub2 hndcls1 hdisj.2
      constructor
      · rw [hstep]
        exact hsnd
      · intro k
        rw [hstep, hval k]
        have hfind1 : Batch.find? (Batch.extendMerged (Batch.removeIds b mids) m mids) k =
            if k ∈ mids then none
            else if k = m then
              (Batch.find? b k).map
                (fun r => { r with merged_sequence_ids := r.merged_sequence_ids ++ mids })
            else Batch.find? b k := by
          rw [Batch.find?_extendMerged, Batch.find?_removeIds]
          by_cases hk1 : k = m
          · subst hk1
            simp [hsortnd.1]
          · by_cases hk2 : k ∈ mids
            · simp [hk1, hk2]
            · simp [hk1, hk2]
        by_cases hk : k ∈ ids
        · -- k belongs to the class being merged; later classes do not touch it
          have hcnone : classOf rest k = none :=
            classOf_eq_none fun p hp => hdisj.1 p hp k hk
          have hgoal1 : dedupeValue (Batch.extendMerged (Batch.removeIds b mids) m mids)
              rest k = Batch.find? (Batch.extendMerged (Batch.removeIds b mids) m mids) k := by
            unfold dedupeValue
            rw [hcnone]
          rw [hgoal1, hfind1]
          simp only [dedupeValue, classOf, if_pos hk, if_pos hlen, hsort]
          by_cases hk1 : k = m
          · subst hk1
            simp [hsortnd.1]
          · have hk2 : k ∈ mids := by
              have hmem2 : k ∈ m :: mids := by
                rw [← hsort]
                exact (hperm.mem_iff).mpr hk
              rcases List.mem_cons.mp hmem2 with h | h
              · exact absurd h hk1
              · exact h
            simp [hk1, hk2]
        · -- k is untouched by this class
          have hfind2 : Batch.find? (Batch.extendMerged (Batch.removeIds b mids) m mids) k =
              Batch.find? b k := by
            rw [hfind1]
            have hk2 : k ∉ mids := fun hc => hk (hmemids k (List.mem_cons_of_mem _ hc))
            have hk1 : k ≠ m := fun hc => hk (hc ▸ hmemids m (List.mem_cons_self _ _))
            rw [if_neg hk2, if_neg hk1]
          rw [dedupeValue_congr hfind2, dedupeValue_cons_not_mem hk]
    · have hstep : dedupeMerges b ((a, ids) :: rest) = dedupeMerges b rest := by
        simp only [dedupeMerges, if_neg hlen]
      obtain ⟨hsnd, hval⟩ := ih hwf hkeys hsub1 hndcls1 hdisj.2
      constructor
      · rw [hstep]
        exact hsnd
      · intro k
        rw [hstep, hval k]
        by_cases hk : k ∈ ids
        · have hcnone : classOf rest k = none :=
            classOf_eq_none fun p hp => hdisj.1 p hp k hk
          unfold dedupeValue
          rw [hcnone]
          simp only [classOf, if_pos hk, if_neg hlen]
        · rw [dedupeValue_cons_not_mem hk]

theorem classOf_eq_class {b : Batch} (hkeys : (Batch.keys b).Nodup)
    {addrs : List (String × List String)}
    (hcls : ∀ p ∈ addrs, (p : String × List String).2 = clsIds b p.1)
    {k a : String} (hk : k ∈ clsIds b a) (hmem : (a, clsIds b a) ∈ addrs) :
    classOf addrs k = some (clsIds b a) := by
  induction addrs with
  | nil => simp at hmem
  | cons p rest ih =>
    obtain ⟨a0, ids0⟩ := p
    have h0 : ids0 = clsIds b a0 := hcls _ (List.mem_cons_self _ _)
    by_cases hin : k ∈ ids0
    · have hin0 : k ∈ clsIds b a0 := by
        rw [h0] at hin
        exact hin
      have ha : a0 = a := by
        by_contra hne
        exact (clsIds_disjoint hkeys hne hin0) hk
      subst ha
      simp only [classOf, if_pos hin]
      rw [h0]
    · have hmem2 : (a, clsIds b a) ∈ rest := by
        rcases List.mem_cons.mp hmem with h | h
        · exfalso
          rw [Prod.mk.injEq] at h
          apply hin
          rw [h0, ← h.1]
          exact hk
        · exact h
      simp only [classOf, if_neg hin]
      exact ih (fun p hp => hcls p (List.mem_cons_of_mem _ hp)) hmem2

/-- Full characterization of the deduplication stage: it raises no error,
and the record stored under each id of an address class is, afterwards,
exactly what the class prescribes (the sorted-least id keeps its record
with the remaining sorted ids appended to its merged list; the other ids
are gone; singleton classes are untouched). -/
theorem dedupe_spec {b : Batch}
    (hwf : ∀ e ∈ b, (e : String × Record).2.sequence_id = e.1)
    (hkeys : (Batch.keys b).Nodup)
    (hok : ∀ e ∈ b, exceptOk (e : String × Record).2.addressKey = true) :
    (Batch.dedupe b).2 = none ∧
      ∀ a k, k ∈ clsIds b a →
        Batch.find? (Batch.dedupe b).1 k =
          if (clsIds b a).length > 1 then
            match sortIds (clsIds b a) with
            | [] => Batch.find? b k
            | m :: mids =>
              if k = m then
                (Batch.find? b k).map
                  (fun r => { r with merged_sequence_ids := r.merged_sequence_ids ++ mids })
              else none
          else Batch.find? b k := by
  obtain ⟨addrs, hrun, hnd, hlook⟩ := buildAddresses_spec hkeys hok
  have hentry : ∀ p ∈ addrs, (p : String × List String).2 = clsIds b p.1 := by
    intro p hp
    obtain ⟨x, ids⟩ := p
    have hl := lookupM_of_mem_nodup hnd hp
    rw [hlook x] at hl
    by_cases hc : clsIds b x = []
    · rw [if_pos hc] at hl
      exact absurd hl (by simp)
    · rw [if_neg hc] at hl
      exact (Option.some.inj hl).symm
  have hsub : ∀ p ∈ addrs, ∀ i ∈ (p : String × List String).2, i ∈ Batch.keys b := by
    intro p hp i hi
    rw [hentry p hp] at hi
    exact (clsIds_sublist_keys b p.1).subset hi
  have hndcls : ∀ p ∈ addrs, (p : String × List String).2.Nodup := by
    intro p hp
    rw [hentry p hp]
    exact clsIds_nodup hkeys _
  have hpair : List.Pairwise (fun p q => (p : String × List String).1 ≠ q.1) addrs := by
    have h1 : List.Pairwise (fun x y => x ≠ y) (mKeys addrs) := hnd
    rw [mKeys] at h1
    exact List.pairwise_map.mp h1
  have hdisj : List.Pairwise (fun p q => ∀ i ∈ p.2, i ∉ q.2) addrs := by
    refine hpair.imp_of_mem ?_
    intro p q hp hq hne i hi
    rw [hentry p hp] at hi
    rw [hentry q hq]
    exact clsIds_disjoint hkeys hne hi
  obtain ⟨hsnd, hval⟩ := dedupeMerges_spec hwf hkeys hsub hndcls hdisj
  constructor
  · simp only [Batch.dedupe, hrun]
    exact hsnd
  · intro a k hk
    have hclsne : clsIds b a ≠ [] := by
      intro hc
      rw [hc] at hk
      exact (List.not_mem_nil k) hk
    have hmem : (a, clsIds b a) ∈ addrs := by
      have hl := hlook a
      rw [if_neg hclsne] at hl
      exact lookupM_mem hl
    have hco := classOf_eq_class hkeys hentry hk hmem
    simp only [Batch.dedupe, hrun]
    rw [hval k]
    simp only [dedupeValue, hco]

/-- Claim C1: in a batch with distinct sequence ids (all records fresh from
the reader, with every address field present), for every nonempty address
class — the set of ids whose concatenated STREET, CITY, ZIP, COUNTRY values
equal `a` — deduplication succeeds and leaves exactly one record of the
class: the one with the lexicographically smallest id, its
`merged_sequence_ids` holding exactly the other ids of the class, each
once, in ascending lexicographic order; every other id of the class is
gone. -/
theorem c1_dedupe_address_class (b : Batch) (a : String)
    (hwf : ∀ e ∈ b, (e : String × Record).2.sequence_id = e.1)
    (hkeys : (Batch.keys b).Nodup)
    (hfresh : ∀ e ∈ b, (e : String × Record).2.merged_sequence_ids = [])
    (hok : ∀ e ∈ b, exceptOk (e : String × Record).2.addressKey = true)
    (hcls : clsIds b a ≠ []) :
    (Batch.dedupe b).2 = none ∧
    ∃ m mids r0,
      sortIds (clsIds b a) = m :: mids ∧
      m ∈ clsIds b a ∧
      (∀ j ∈ clsIds b a, strLe m j = true) ∧
      mids.Nodup ∧
      List.Sorted (fun x y => strLe x y = true) mids ∧
      (∀ j, j ∈ mids ↔ (j ∈ clsIds b a ∧ j ≠ m)) ∧
      Batch.find? b m = some r0 ∧
      Batch.find? (Batch.dedupe b).1 m =
        some { r0 with merged_sequence_ids := mids } ∧
      (∀ j ∈ clsIds b a, j ≠ m → Batch.find? (Batch.dedupe b).1 j = none) := by
  obtain ⟨hsnd, hval⟩ := dedupe_spec hwf hkeys hok
  refine ⟨hsnd, ?_⟩
  have hperm := sortIds_perm (clsIds b a)
  have hne2 : sortIds (clsIds b a) ≠ [] := by
    intro hc
    have hlen0 : (clsIds b a).length = 0 := by
      rw [← hperm.length_eq, hc]
      rfl
    exact hcls (List.length_eq_zero.mp hlen0)
  obtain ⟨m, mids, hsort⟩ : ∃ m mids, sortIds (clsIds b a) = m :: mids := by
    cases hs : sortIds (clsIds b a) with
    | nil => exact absurd hs hne2
    | cons m mids => exact ⟨m, mids, rfl⟩
  have hsorted : List.Sorted (fun x y => strLe x y = true) (m :: mids) := by
    rw [← hsort]
    exact sortIds_sorted (clsIds b a)
  have hndS : (clsIds b a).Nodup := clsIds_nodup hkeys a
  have hndsort : (m :: mids).Nodup := by
    rw [← hsort]
    exact hperm.nodup_iff.mpr hndS
  rw [List.nodup_cons] at hndsort
  rw [List.sorted_cons] at hsorted
  have hmemm : m ∈ clsIds b a := hperm.subset (by rw [hsort]; exact List.mem_cons_self _ _)
  have hmint : ∀ j ∈ clsIds b a, j ∈ m :: mids := by
    intro j hj
    rw [← hsort]
    exact hperm.mem_iff.mpr hj
  have hiff : ∀ j, j ∈ mids ↔ (j ∈ clsIds b a ∧ j ≠ m) := by
    intro j
    constructor
    · intro hj
      refine ⟨hperm.subset (by rw [hsort]; exact List.mem_cons_of_mem _ hj), ?_⟩
      intro hc
      subst hc
      exact hndsort.1 hj
    · rintro ⟨hj, hjm⟩
      rcases List.mem_cons.mp (hmint j hj) with h | h
      · exact absurd h hjm
      · exact h
  have hmle : ∀ j ∈ clsIds b a, strLe m j = true := by
    intro j hj
    rcases List.mem_cons.mp (hmint j hj) with h | h
    · rw [h]
      exact strLe_refl _
    · exact hsorted.1 j h
  obtain ⟨r0, hr0⟩ := Batch.mem_keys_exists_find? ((clsIds_sublist_keys b a).subset hmemm)
  have hfr0 : r0.merged_sequence_ids = [] := hfresh _ (Batch.find?_eq_some_mem hr0)
  refine ⟨m, mids, r0, hsort, hmemm, hmle, hndsort.2, hsorted.2, hiff, hr0, ?_, ?_⟩
  · have h := hval a m hmemm
    by_cases hlen : (clsIds b a).length > 1
    · simp only [if_pos hlen, hsort] at h
      rw [hr0] at h
      simp at h
      rw [h, hfr0]
      simp
    · rw [if_neg hlen] at h
      have hS1 : (clsIds b a).length = 1 := by
        have hp := List.length_pos.mpr hcls
        omega
      have hmids : mids = [] := by
        have hl := hperm.length_eq
        rw [hsort, hS1] at hl
        simp at hl
        exact hl
      subst hmids
      rw [h, hr0, ← hfr0]
  · intro j hj hjm
    have h := hval a j hj
    have hlen : (clsIds b a).length > 1 := by
      by_contra hc
      push_neg at hc
      have hS1 : (clsIds b a).length = 1 := by
        have hp := List.length_pos.mpr hcls
        omega
      obtain ⟨x, hx⟩ := List.length_eq_one.mp hS1
      rw [hx] at hj hmemm
      rw [List.mem_singleton] at hj hmemm
      exact hjm (hj.trans hmemm.symm)
    simp only [if_pos hlen, hsort] at h
    rw [if_neg hjm] at h
    exact h

/-- The spec's lowest-id-survivor example: ids 003, 001, 002 sharing one
address. -/
def c1ExampleBatch : Batch :=
  [("003", Record.create "003"
      [("STREET", "1 Elm"), ("CITY", "A"), ("ZIP", "0"), ("COUNTRY", "US")]),
   ("001", Record.create "001"
      [("STREET", "1 Elm"), ("CITY", "A"), ("ZIP", "0"), ("COUNTRY", "US")]),
   ("002", Record.create "002"
      [("STREET", "1 Elm"), ("CITY", "A"), ("ZIP", "0"), ("COUNTRY", "US")])]

/-- Witness for C1 at the spec's own example. -/
theorem c1_dedupe_address_class_witness :
    ((∀ e ∈ c1ExampleBatch, (e : String × Record).2.sequence_id = e.1) ∧
     (Batch.keys c1ExampleBatch).Nodup ∧
     (∀ e ∈ c1ExampleBatch, (e : String × Record).2.merged_sequence_ids = []) ∧
     (∀ e ∈ c1ExampleBatch, exceptOk (e : String × Record).2.addressKey = true) ∧
     clsIds c1ExampleBatch "1 ElmA0US" ≠ []) ∧
    ((Batch.dedupe c1ExampleBatch).2 = none ∧
     ∃ m mids r0,
       sortIds (clsIds c1ExampleBatch "1 ElmA0US") = m :: mids ∧
       m ∈ clsIds c1ExampleBatch "1 ElmA0US" ∧
       (∀ j ∈ clsIds c1ExampleBatch "1 ElmA0US", strLe m j = true) ∧
       mids.Nodup ∧
       List.Sorted (fun x y => strLe x y = true) mids ∧
       (∀ j, j ∈ mids ↔ (j ∈ clsIds c1ExampleBatch "1 ElmA0US" ∧ j ≠ m)) ∧
       Batch.find? c1ExampleBatch m = some r0 ∧
       Batch.find? (Batch.dedupe c1ExampleBatch).1 m =
         some { r0 with merged_sequence_ids := mids } ∧
       (∀ j ∈ clsIds c1ExampleBatch "1 ElmA0US", j ≠ m →
         Batch.find? (Batch.dedupe c1ExampleBatch).1 j = none)) :=
  ⟨⟨by decide, by decide, by decide, by decide, by decide⟩,
   c1_dedupe_address_class c1ExampleBatch "1 ElmA0US"
     (by decide) (by decide) (by decide) (by decide) (by decide)⟩

/-- Two records that differ in the STREET and CITY fields but whose
delimiter-free concatenations collide ("1 ElmA" ++ "" = "1 Elm" ++ "A"). -/
def c2CollisionBatch : Batch :=
  [("001", Record.create "001"
      [("STREET", "1 ElmA"), ("CITY", ""), ("ZIP", "0"), ("COUNTRY", "US")]),
   ("002", Record.create "002"
      [("STREET", "1 Elm"), ("CITY", "A"), ("ZIP", "0"), ("COUNTRY", "US")])]

/-- Counterexample to C2 as stated: the two records of `c2CollisionBatch`
differ in the STREET address field, yet deduplication removes record 002
and merges it into record 001, because only the delimiter-free
concatenation of the address fields is compared. -/
theorem c2_counterexample :
    Batch.find? c2CollisionBatch "001" = some (Record.create "001"
      [("STREET", "1 ElmA"), ("CITY", ""), ("ZIP", "0"), ("COUNTRY", "US")]) ∧
    Batch.find? c2CollisionBatch "002" = some (Record.create "002"
      [("STREET", "1 Elm"), ("CITY", "A"), ("ZIP", "0"), ("COUNTRY", "US")]) ∧
    lookupField [("STREET", "1 ElmA"), ("CITY", ""), ("ZIP", "0"), ("COUNTRY", "US")]
        "STREET" ≠
      lookupField [("STREET", "1 Elm"), ("CITY", "A"), ("ZIP", "0"), ("COUNTRY", "US")]
        "STREET" ∧
    (Batch.dedupe c2CollisionBatch).2 = none ∧
    Batch.find? (Batch.dedupe c2CollisionBatch).1 "002" = none ∧
    Batch.find? (Batch.dedupe c2CollisionBatch).1 "001" =
      some { sequence_id := "001",
             fields := [("STREET", "1 ElmA"), ("CITY", ""), ("ZIP", "0"), ("COUNTRY", "US")],
             merged_sequence_ids := ["002"] } := by
  decide

/-- Claim C2 (amended): deduplication never merges two records whose
concatenated address values differ into each other, and a record whose
concatenated address value is unique in the batch survives unchanged. -/
theorem c2_different_address_keys_not_merged (b : Batch) (k1 k2 : String)
    (r1 r2 : Record) (a1 a2 : String)
    (hwf : ∀ e ∈ b, (e : String × Record).2.sequence_id = e.1)
    (hkeys : (Batch.keys b).Nodup)
    (hfresh : ∀ e ∈ b, (e : String × Record).2.merged_sequence_ids = [])
    (hok : ∀ e ∈ b, exceptOk (e : String × Record).2.addressKey = true)
    (h1 : Batch.find? b k1 = some r1)
    (h2 : Batch.find? b k2 = some r2)
    (ha1 : r1.addressKey = Except.ok a1)
    (ha2 : r2.addressKey = Except.ok a2)
    (hne : a1 ≠ a2) :
    (Batch.dedupe b).2 = none ∧
    (∀ r, Batch.find? (Batch.dedupe b).1 k1 = some r → k2 ∉ r.merged_sequence_ids) ∧
    (∀ r, Batch.find? (Batch.dedupe b).1 k2 = some r → k1 ∉ r.merged_sequence_ids) ∧
    (clsIds b a1 = [k1] → Batch.find? (Batch.dedupe b).1 k1 = some r1) ∧
    (clsIds b a2 = [k2] → Batch.find? (Batch.dedupe b).1 k2 = some r2) := by
  obtain ⟨hsnd, hval⟩ := dedupe_spec hwf hkeys hok
  have hk1 : k1 ∈ clsIds b a1 :=
    mem_clsIds_iff.mpr ⟨r1, Batch.find?_eq_some_mem h1, ha1⟩
  have hk2 : k2 ∈ clsIds b a2 :=
    mem_clsIds_iff.mpr ⟨r2, Batch.find?_eq_some_mem h2, ha2⟩
  have aux : ∀ (k : String) (r : Record) (a : String),
      Batch.find? b k = some r → k ∈ clsIds b a →
      ∀ r', Batch.find? (Batch.dedupe b).1 k = some r' →
      ∀ j ∈ r'.merged_sequence_ids, j ∈ clsIds b a := by
    intro k r a hfd hkc r' hr' j hj
    have h := hval a k hkc
    have hfr : r.merged_sequence_ids = [] := hfresh _ (Batch.find?_eq_some_mem hfd)
    by_cases hlen : (clsIds b a).length > 1
    · have hperm := sortIds_perm (clsIds b a)
      obtain ⟨m, mids, hsort⟩ : ∃ m mids, sortIds (clsIds b a) = m :: mids := by
        cases hs : sortIds (clsIds b a) with
        | nil =>
          have hl := hperm.length_eq
          rw [hs] at hl
          simp at hl
          omega
        | cons m mids => exact ⟨m, mids, rfl⟩
      simp only [if_pos hlen, hsort] at h
      by_cases hkm : k = m
      · rw [if_pos hkm, hfd] at h
        simp at h
        rw [hr'] at h
        have hr'v : r' = { r with merged_sequence_ids := r.merged_sequence_ids ++ mids } := by
          exact Option.some.inj h
        rw [hr'v] at hj
        simp only [hfr, List.nil_append] at hj
        have : j ∈ m :: mids := List.mem_cons_of_mem _ hj
        rw [← hsort] at this
        exact hperm.subset this
      · rw [if_neg hkm] at h
        rw [hr'] at h
        exact absurd h.symm (by simp)
    · rw [if_neg hlen] at h
      rw [hr', hfd] at h
      have : r' = r := Option.some.inj h
      rw [this, hfr] at hj
      simp at hj
  refine ⟨hsnd, ?_, ?_, ?_, ?_⟩
  · intro r hr hmem
    have hj := aux k1 r1 a1 h1 hk1 r hr k2 hmem
    obtain ⟨r2x, hr2x, hr2a⟩ := mem_clsIds_iff.mp hj
    have heq := Batch.mem_unique hkeys hr2x (Batch.find?_eq_some_mem h2)
    rw [heq, ha2] at hr2a
    exact hne (Except.ok.inj hr2a).symm
  · intro r hr hmem
    have hj := aux k2 r2 a2 h2 hk2 r hr k1 hmem
    obtain ⟨r1x, hr1x, hr1a⟩ := mem_clsIds_iff.mp hj
    have heq := Batch.mem_unique hkeys hr1x (Batch.find?_eq_some_mem h1)
    rw [heq, ha1] at hr1a
    exact hne (Except.ok.inj hr1a)
  · intro hsingle
    have h := hval a1 k1 hk1
    rw [hsingle] at h
    simp at h
    rw [h, h1]
  · intro hsingle
    have h := hval a2 k2 hk2
    rw [hsingle] at h
    simp at h
    rw [h, h2]

/-- Two records with genuinely different concatenated addresses. -/
def c2DistinctBatch : Batch :=
  [("001", Record.create "001"
      [("STREET", "1 Elm"), ("CITY", "A"), ("ZIP", "0"), ("COUNTRY", "US")]),
   ("002", Record.create "002"
      [("STREET", "2 Oak"), ("CITY", "B"), ("ZIP", "9"), ("COUNTRY", "US")])]

/-- Witness for the amended C2 at a concrete two-record batch. -/
theorem c2_different_address_keys_not_merged_witness :
    ((∀ e ∈ c2DistinctBatch, (e : String × Record).2.sequence_id = e.1) ∧
     (Batch.keys c2DistinctBatch).Nodup ∧
     (∀ e ∈ c2DistinctBatch, (e : String × Record).2.merged_sequence_ids = []) ∧
     (∀ e ∈ c2DistinctBatch, exceptOk (e : String × Record).2.addressKey = true) ∧
     Batch.find? c2DistinctBatch "001" = some (Record.create "001"
       [("STREET", "1 Elm"), ("CITY", "A"), ("ZIP", "0"), ("COUNTRY", "US")]) ∧
     Batch.find? c2DistinctBatch "002" = some (Record.create "002"
       [("STREET", "2 Oak"), ("CITY", "B"), ("ZIP", "9"), ("COUNTRY", "US")]) ∧
     (Record.create "001"
       [("STREET", "1 Elm"), ("CITY", "A"), ("ZIP", "0"), ("COUNTRY", "US")]).addressKey =
         Except.ok "1 ElmA0US" ∧
     (Record.create "002"
       [("STREET", "2 Oak"), ("CITY", "B"), ("ZIP", "9"), ("COUNTRY", "US")]).addressKey =
         Except.ok "2 OakB9US" ∧
     ("1 ElmA0US" : String) ≠ "2 OakB9US") ∧
    ((Batch.dedupe c2DistinctBatch).2 = none ∧
     (∀ r, Batch.find? (Batch.dedupe c2DistinctBatch).1 "001" = some r →
       "002" ∉ r.merged_sequence_ids) ∧
     (∀ r, Batch.find? (Batch.dedupe c2DistinctBatch).1 "002" = some r →
       "001" ∉ r.merged_sequence_ids) ∧
     (clsIds c2DistinctBatch "1 ElmA0US" = ["001"] →
       Batch.find? (Batch.dedupe c2DistinctBatch).1 "001" = some (Record.create "001"
         [("STREET", "1 Elm"), ("CITY", "A"), ("ZIP", "0"), ("COUNTRY", "US")])) ∧
     (clsIds c2DistinctBatch "2 OakB9US" = ["002"] →
       Batch.find? (Batch.dedupe c2DistinctBatch).1 "002" = some (Record.create "002"
         [("STREET", "2 Oak"), ("CITY", "B"), ("ZIP", "9"), ("COUNTRY", "US")]))) :=
  ⟨⟨by decide, by decide, by decide, by decide, by decide, by decide, by decide,
    by decide, by decide⟩,
   c2_different_address_keys_not_merged c2DistinctBatch "001" "002" _ _ _ _
     (by decide) (by decide) (by decide) (by decide) (by decide) (by decide)
     (by decide) (by decide) (by decide)⟩

/-- Counterexample to C5 as stated: constructing a `Record` with an empty
`sequence_id`, or with a field mapping lacking any sequence id, succeeds
and yields a `Record` — `Record.__init__` has no validation and no
`ValidationError` exists in the code. -/
theorem c5_counterexample :
    Record.create "" [("STREET", "s")] =
      { sequence_id := "", fields := [("STREET", "s")], merged_sequence_ids := [] } ∧
    Record.create "001" [] =
      { sequence_id := "001", fields := [], merged_sequence_ids := [] } :=
  ⟨rfl, rfl⟩

/-- Claim C5 (amended): `Record` construction never fails; for every
`sequence_id` (the empty string included) and every field mapping (one
missing the sequence id included) it yields the record with that
identifier, those fields, and an empty merged list. -/
theorem c5_create_never_fails (sid : String) (fields : Fields) :
    (Record.create sid fields).sequence_id = sid ∧
    (Record.create sid fields).fields = fields ∧
    (Record.create sid fields).merged_sequence_ids = [] :=
  ⟨rfl, rfl, rfl⟩

/-- Witness for the amended C5 at the empty sequence id. -/
theorem c5_create_never_fails_witness :
    (Record.create "" []).sequence_id = "" ∧
    (Record.create "" []).fields = [] ∧
    (Record.create "" []).merged_sequence_ids = [] :=
  c5_create_never_fails "" []

/-- Counterexample to C6 as stated: with `merge_ids` empty, `Batch.merge`
raises nothing even though `main_id` is absent from the (empty) batch. -/
theorem c6_counterexample :
    Batch.merge [] "001" [] = ([], none) ∧ "001" ∉ Batch.keys ([] : Batch) :=
  ⟨rfl, by decide⟩

/-- Claim C6 (amended): `Batch.merge` raises `KeyNotFound` for an absent
`main_id` only when `merge_ids` is nonempty (with empty `merge_ids` it
returns silently); when `main_id` and all `merge_ids` are present it
removes each merge id's entry and appends the ids to the main record's
merged list in the order passed; when some merge id is absent it raises
`KeyNotFound` naming an absent merge id. -/
theorem c6_batch_merge_contract (b : Batch) (main : String) (ids : List String)
    (hwf : ∀ e ∈ b, (e : String × Record).2.sequence_id = e.1)
    (hkeys : (Batch.keys b).Nodup)
    (hnd : ids.Nodup)
    (hmm : main ∉ ids) :
    (ids = [] → Batch.merge b main ids = (b, none)) ∧
    (ids ≠ [] → main ∉ Batch.keys b →
      Batch.merge b main ids = (b, some (Err.keyNotFound main))) ∧
    (main ∈ Batch.keys b → (∀ i ∈ ids, i ∈ Batch.keys b) →
      Batch.merge b main ids =
        (Batch.extendMerged (Batch.removeIds b ids) main ids, none)) ∧
    (main ∈ Batch.keys b → (∃ i ∈ ids, i ∉ Batch.keys b) →
      ∃ j, j ∈ ids ∧ j ∉ Batch.keys b ∧
        (Batch.merge b main ids).2 = some (Err.keyNotFound j)) := by
  refine ⟨?_, ?_, ?_, ?_⟩
  · intro h
    subst h
    rfl
  · intro hne habs
    exact Batch.merge_main_absent hne habs
  · intro hmain hids
    exact Batch.merge_ok hwf hkeys hmain hids hnd hmm
  · intro hmain habs
    exact Batch.merge_error_of_absent hwf hkeys hmain hnd hmm habs

/-- A three-record batch used to witness the `Batch.merge` contract. -/
def mergeExampleBatch : Batch :=
  [("001", Record.create "001" [("STREET", "1 Elm")]),
   ("002", Record.create "002" [("STREET", "2 Oak")]),
   ("003", Record.create "003" [("STREET", "3 Ash")])]

/-- Witness for the amended C6 at a concrete three-record batch. -/
theorem c6_batch_merge_contract_witness :
    ((∀ e ∈ mergeExampleBatch, (e : String × Record).2.sequence_id = e.1) ∧
     (Batch.keys mergeExampleBatch).Nodup ∧
     (["003", "002"] : List String).Nodup ∧
     ("001" : String) ∉ (["003", "002"] : List String)) ∧
    ((["003", "002"] = ([] : List String) →
       Batch.merge mergeExampleBatch "001" ["003", "002"] = (mergeExampleBatch, none)) ∧
     ((["003", "002"] : List String) ≠ [] → "001" ∉ Batch.keys mergeExampleBatch →
       Batch.merge mergeExampleBatch "001" ["003", "002"] =
         (mergeExampleBatch, some (Err.keyNotFound "001"))) ∧
     (("001" : String) ∈ Batch.keys mergeExampleBatch →
       (∀ i ∈ (["003", "002"] : List String), i ∈ Batch.keys mergeExampleBatch) →
       Batch.merge mergeExampleBatch "001" ["003", "002"] =
         (Batch.extendMerged (Batch.removeIds mergeExampleBatch ["003", "002"])
           "001" ["003", "002"], none)) ∧
     (("001" : String) ∈ Batch.keys mergeExampleBatch →
       (∃ i ∈ (["003", "002"] : List String), i ∉ Batch.keys mergeExampleBatch) →
       ∃ j, j ∈ (["003", "002"] : List String) ∧ j ∉ Batch.keys mergeExampleBatch ∧
         (Batch.merge mergeExampleBatch "001" ["003", "002"]).2 =
           some (Err.keyNotFound j))) :=
  ⟨⟨by decide, by decide, by decide, by decide⟩,
   c6_batch_merge_contract mergeExampleBatch "001" ["003", "002"]
     (by decide) (by decide) (by decide) (by decide)⟩

/-- Claim C8: `Record.merge` appends the other record's sequence id to this
record's merged list and changes nothing else; in particular no field
values are copied from the other record. -/
theorem c8_record_merge_frame (r other : Record) :
    (Record.merge r other).sequence_id = r.sequence_id ∧
    (Record.merge r other).fields = r.fields ∧
    (Record.merge r other).merged_sequence_ids =
      r.merged_sequence_ids ++ [other.sequence_id] :=
  ⟨rfl, rfl, rfl⟩

/-- Witness for C8 at two concrete records. -/
theorem c8_record_merge_frame_witness :
    ((Record.merge (Record.create "001" [("STREET", "1 Elm")])
        (Record.create "002" [("STREET", "2 Oak")])).sequence_id = "001") ∧
    ((Record.merge (Record.create "001" [("STREET", "1 Elm")])
        (Record.create "002" [("STREET", "2 Oak")])).fields = [("STREET", "1 Elm")]) ∧
    ((Record.merge (Record.create "001" [("STREET", "1 Elm")])
        (Record.create "002" [("STREET", "2 Oak")])).merged_sequence_ids = [] ++ ["002"]) :=
  c8_record_merge_frame (Record.create "001" [("STREET", "1 Elm")])
    (Record.create "002" [("STREET", "2 Oak")])

/-- Claim C10: `Batch.merge` is not atomic on error — with
`merge_ids = pre ++ bad :: post` where all of `pre` are present and `bad`
is absent, the call stops at `bad` with `KeyNotFound` after every id of
`pre` has already been removed from the batch and appended to the main
record's merged list; and with no merge ids it returns silently even for
an absent `main_id`. -/
theorem c10_batch_merge_not_atomic (b : Batch) (main bad : String)
    (pre post : List String)
    (hwf : ∀ e ∈ b, (e : String × Record).2.sequence_id = e.1)
    (hkeys : (Batch.keys b).Nodup)
    (hmain : main ∈ Batch.keys b)
    (hpre : ∀ i ∈ pre, i ∈ Batch.keys b)
    (hnd : pre.Nodup)
    (hmm : main ∉ pre)
    (hbad : bad ∉ Batch.keys b) :
    Batch.merge b main (pre ++ bad :: post) =
      (Batch.extendMerged (Batch.removeIds b pre) main pre,
        some (Err.keyNotFound bad)) ∧
    (∀ (b' : Batch) (m : String), Batch.merge b' m [] = (b', none)) :=
  ⟨Batch.merge_stops_at_absent hwf hkeys hmain hpre hnd hmm hbad,
   fun _ _ => rfl⟩

/-- Witness for C10: merging `["002", "XXX", "003"]` into `"001"` stops at
the absent id `"XXX"` with `"002"` already merged. -/
theorem c10_batch_merge_not_atomic_witness :
    ((∀ e ∈ mergeExampleBatch, (e : String × Record).2.sequence_id = e.1) ∧
     (Batch.keys mergeExampleBatch).Nodup ∧
     ("001" : String) ∈ Batch.keys mergeExampleBatch ∧
     (∀ i ∈ (["002"] : List String), i ∈ Batch.keys mergeExampleBatch) ∧
     (["002"] : List String).Nodup ∧
     ("001" : String) ∉ (["002"] : List String) ∧
     ("XXX" : String) ∉ Batch.keys mergeExampleBatch) ∧
    (Batch.merge mergeExampleBatch "001" (["002"] ++ "XXX" :: ["003"]) =
      (Batch.extendMerged (Batch.removeIds mergeExampleBatch ["002"]) "001" ["002"],
        some (Err.keyNotFound "XXX")) ∧
     (∀ (b' : Batch) (m : String), Batch.merge b' m [] = (b', none))) :=
  ⟨⟨by decide, by decide, by decide, by decide, by decide, by decide, by decide⟩,
   c10_batch_merge_not_atomic mergeExampleBatch "001" "XXX" ["002"] ["003"]
     (by decide) (by decide) (by decide) (by decide) (by decide) (by decide) (by decide)⟩

/-- Counterexample to C4 as stated: invoked with no command line argument,
the `IndexError` from `sys.argv[1]` is caught, but the handler's f-string
references `csv_path`, which was never bound, so the handler raises
`NameError`; it escapes uncaught and the process exits with status 1, not
0 (and the handler logs nothing). -/
theorem c4_counterexample :
    runMain { argv := [], csvRows := none, writesSucceed := true } = 1 ∧
    runMain { argv := [], csvRows := none, writesSucceed := true } ≠ 0 :=
  ⟨rfl, by decide⟩

/-- Claim C4 (amended): whenever the input-path argument is supplied, any
internal failure (unreadable file, missing field, write failure) is logged
by the `except` handler and swallowed, and the process exits with status 0
without re-raising; when the argument is missing, the handler itself
fails with `NameError` on the unbound `csv_path`, the error escapes, and
the process exits with status 1. -/
theorem c4_exit_status (inp : RunInput) :
    (inp.argv ≠ [] → runMain inp = 0) ∧
    (inp.argv = [] → runMain inp = 1) := by
  constructor
  · intro h
    cases hargv : inp.argv with
    | nil => exact absurd hargv h
    | cons p rest =>
      unfold runMain
      cases runPipeline inp with
      | ok out => rfl
      | error e => simp [hargv]
  · intro h
    have hp : runPipeline inp = Except.error Err.missingInputPath := by
      unfold runPipeline
      rw [h]
    unfold runMain
    rw [hp, h]

/-- Witness for the amended C4: one run with the argument present and a
failing stage (unreadable file) exits 0; one run with the argument missing
exits 1. -/
theorem c4_exit_status_witness :
    ((({ argv := ["input.csv"], csvRows := none, writesSucceed := true } : RunInput).argv ≠ [] ∧
      runMain { argv := ["input.csv"], csvRows := none, writesSucceed := true } = 0) ∧
     (({ argv := [], csvRows := none, writesSucceed := true } : RunInput).argv = [] ∧
      runMain { argv := [], csvRows := none, writesSucceed := true } = 1)) :=
  ⟨⟨by decide,
    (c4_exit_status { argv := ["input.csv"], csvRows := none, writesSucceed := true }).1
      (by decide)⟩,
   ⟨rfl,
    (c4_exit_status { argv := [], csvRows := none, writesSucceed := true }).2 rfl⟩⟩

/-! ### The group classes built by the grouping loop -/

/-- The entries contributed to group `gk`: for every record of `b` whose
group key is `gk`, the entry `(record.sequence_id, record)` that
`groups[key].add(record)` inserts, in batch order. -/
def clsRecs : Batch → List String → Batch
  | [], _ => []
  | (_, r) :: rest, gk =>
    if r.groupKey = Except.ok gk then (r.sequence_id, r) :: clsRecs rest gk
    else clsRecs rest gk

/-- Lookup in the group map. -/
def lookupG : List (List String × Batch) → List String → Option Batch
  | [], _ => none
  | (k, gb) :: rest, gk => if k = gk then some gb else lookupG rest gk

/-- The keys of the group map. -/
def gKeys (gs : List (List String × Batch)) : List (List String) := gs.map Prod.fst

theorem gKeys_cons (e : List String × Batch) (rest : List (List String × Batch)) :
    gKeys (e :: rest) = e.1 :: gKeys rest := rfl

theorem Batch.mem_keys_add {gb : Batch} {r : Record} {k : String} :
    k ∈ Batch.keys (Batch.add gb r) ↔ k ∈ Batch.keys gb ∨ k = r.sequence_id := by
  induction gb with
  | nil => simp [Batch.add, Batch.keys]
  | cons e rest ih =>
    obtain ⟨k0, r0⟩ := e
    by_cases hk : k0 = r.sequence_id
    · simp only [Batch.add, if_pos hk, Batch.keys_cons, List.mem_cons]
      constructor
      · rintro (h | h)
        · exact Or.inl (Or.inl h)
        · exact Or.inl (Or.inr h)
      · rintro ((h | h) | h)
        · exact Or.inl h
        · exact Or.inr h
        · rw [h, ← hk]
          exact Or.inl rfl
    · simp only [Batch.add, if_neg hk, Batch.keys_cons, List.mem_cons]
      rw [ih]
      tauto

theorem Batch.add_eq_append {gb : Batch} {r : Record}
    (h : r.sequence_id ∉ Batch.keys gb) :
    Batch.add gb r = gb ++ [(r.sequence_id, r)] := by
  induction gb with
  | nil => rfl
  | cons e rest ih =>
    obtain ⟨k0, r0⟩ := e
    rw [Batch.keys_cons, List.mem_cons] at h
    push_neg at h
    simp only [Batch.add, if_neg (Ne.symm h.1), List.cons_append]
    rw [ih h.2]

theorem groupInsert_pos (gb : Batch) (rest : List (List String × Batch))
    (gk : List String) (r : Record) :
    groupInsert ((gk, gb) :: rest) gk r = (gk, gb.add r) :: rest := by
  simp [groupInsert]

theorem groupInsert_neg {k0 : List String} (gb : Batch)
    (rest : List (List String × Batch)) {gk : List String} (r : Record)
    (hk : k0 ≠ gk) :
    groupInsert ((k0, gb) :: rest) gk r = (k0, gb) :: groupInsert rest gk r := by
  simp [groupInsert, hk]

theorem groupInsert_lookup (acc : List (List String × Batch)) (gk : List String)
    (r : Record) (x : List String) :
    lookupG (groupInsert acc gk r) x =
      if x = gk then some (Batch.add ((lookupG acc gk).getD []) r)
      else lookupG acc x := by
  induction acc with
  | nil =>
    by_cases hx : x = gk
    · simp [groupInsert, lookupG, hx]
    · simp [groupInsert, lookupG, hx, Ne.symm hx]
  | cons e rest ih =>
    obtain ⟨k0, gb0⟩ := e
    by_cases hk : k0 = gk
    · subst hk
      by_cases hx : x = k0
      · subst hx
        simp [groupInsert, lookupG]
      · simp [groupInsert, lookupG, Ne.symm hx, hx]
    · by_cases hx : x = k0
      · subst hx
        simp [groupInsert_neg gb0 rest r hk, lookupG, hk, ih]
      · simp [groupInsert_neg gb0 rest r hk, lookupG, hk, Ne.symm hx, hx, ih]

theorem lookupG_mem {gs : List (List String × Batch)} {x : List String} {gb : Batch}
    (h : lookupG gs x = some gb) : (x, gb) ∈ gs := by
  induction gs with
  | nil => simp [lookupG] at h
  | cons e rest ih =>
    obtain ⟨k0, gb0⟩ := e
    by_cases hk : k0 = x
    · subst hk
      simp [lookupG] at h
      subst h
      exact List.mem_cons_self _ _
    · simp [lookupG, hk] at h
      exact List.mem_cons_of_mem _ (ih h)

theorem mem_gKeys_of_mem {gs : List (List String × Batch)} {x : List String}
    {gb : Batch} (h : (x, gb) ∈ gs) : x ∈ gKeys gs :=
  List.mem_map_of_mem Prod.fst h

theorem lookupG_of_mem_nodup {gs : List (List String × Batch)} {x : List String}
    {gb : Batch} (hnd : (gKeys gs).Nodup) (h : (x, gb) ∈ gs) :
    lookupG gs x = some gb := by
  induction gs with
  | nil => simp at h
  | cons e rest ih =>
    obtain ⟨k0, gb0⟩ := e
    rw [gKeys_cons, List.nodup_cons] at hnd
    rcases List.mem_cons.mp h with h | h
    · rw [Prod.mk.injEq] at h
      simp [lookupG, h.1, h.2]
    · have hk : k0 ≠ x := by
        intro hc
        subst hc
        exact hnd.1 (mem_gKeys_of_mem h)
      simp [lookupG, hk, ih hnd.2 h]

theorem mem_gKeys_groupInsert {acc : List (List String × Batch)}
    {gk x : List String} {r : Record} :
    x ∈ gKeys (groupInsert acc gk r) ↔ x ∈ gKeys acc ∨ x = gk := by
  induction acc with
  | nil => simp [groupInsert, gKeys]
  | cons e rest ih =>
    obtain ⟨k0, gb0⟩ := e
    by_cases hk : k0 = gk
    · subst hk
      rw [groupInsert_pos, gKeys_cons, gKeys_cons]
      constructor
      · exact fun h => Or.inl h
      · rintro (h | h)
        · exact h
        · rw [h]
          exact List.mem_cons_self _ _
    · rw [groupInsert_neg gb0 rest r hk, gKeys_cons, gKeys_cons, List.mem_cons,
        List.mem_cons, ih]
      tauto

theorem gKeys_nodup_groupInsert {acc : List (List String × Batch)}
    {gk : List String} {r : Record} (hnd : (gKeys acc).Nodup) :
    (gKeys (groupInsert acc gk r)).Nodup := by
  induction acc with
  | nil => simp [groupInsert, gKeys]
  | cons e rest ih =>
    obtain ⟨k0, gb0⟩ := e
    rw [gKeys_cons, List.nodup_cons] at hnd
    by_cases hk : k0 = gk
    · subst hk
      rw [groupInsert_pos, gKeys_cons, List.nodup_cons]
      exact ⟨hnd.1, hnd.2⟩
    · rw [groupInsert_neg gb0 rest r hk, gKeys_cons, List.nodup_cons]
      refine ⟨?_, ih hnd.2⟩
      intro hc
      rcases mem_gKeys_groupInsert.mp hc with h | h
      · exact hnd.1 h
      · exact hk h

theorem mem_keys_groupInsert {acc : List (List String × Batch)} {gk : List String}
    {r : Record} {p : List String × Batch} (hp : p ∈ groupInsert acc gk r)
    {i : String} (hi : i ∈ Batch.keys p.2) :
    (∃ q ∈ acc, i ∈ Batch.keys (q : List String × Batch).2) ∨ i = r.sequence_id := by
  induction acc with
  | nil =>
    simp [groupInsert] at hp
    subst hp
    simp only [Batch.add] at hi
    rw [Batch.keys_cons] at hi
    rcases List.mem_cons.mp hi with h | h
    · exact Or.inr h
    · simp [Batch.keys_nil] at h
  | cons e rest ih =>
    obtain ⟨k0, gb0⟩ := e
    by_cases hk : k0 = gk
    · subst hk
      rw [groupInsert_pos] at hp
      rcases List.mem_cons.mp hp with hp | hp
      · subst hp
        rcases Batch.mem_keys_add.mp hi with h | h
        · exact Or.inl ⟨(k0, gb0), List.mem_cons_self _ _, h⟩
        · exact Or.inr h
      · exact Or.inl ⟨p, List.mem_cons_of_mem _ hp, hi⟩
    · rw [groupInsert_neg gb0 rest r hk] at hp
      rcases List.mem_cons.mp hp with hp | hp
      · subst hp
        exact Or.inl ⟨(k0, gb0), List.mem_cons_self _ _, hi⟩
      · rcases ih hp with h | h
        · obtain ⟨q, hq, hqi⟩ := h
          exact Or.inl ⟨q, List.mem_cons_of_mem _ hq, hqi⟩
        · exact Or.inr h

theorem clsRecs_sub {b : Batch} {gk : List String} :
    ∀ e ∈ clsRecs b gk, ∃ k, (k, (e : String × Record).2) ∈ b ∧
      e.1 = e.2.sequence_id ∧ e.2.groupKey = Except.ok gk := by
  induction b with
  | nil => intro e he; simp [clsRecs] at he
  | cons f rest ih =>
    obtain ⟨k0, r0⟩ := f
    intro e he
    by_cases hc : r0.groupKey = Except.ok gk
    · simp only [clsRecs, if_pos hc] at he
      rcases List.mem_cons.mp he with h | h
      · subst h
        exact ⟨k0, List.mem_cons_self _ _, rfl, hc⟩
      · obtain ⟨k, hk, h1, h2⟩ := ih e h
        exact ⟨k, List.mem_cons_of_mem _ hk, h1, h2⟩
    · simp only [clsRecs, if_neg hc] at he
      obtain ⟨k, hk, h1, h2⟩ := ih e he
      exact ⟨k, List.mem_cons_of_mem _ hk, h1, h2⟩

theorem mem_clsRecs_of {b : Batch} {gk : List String} {k : String} {r : Record}
    (hm : (k, r) ∈ b) (hg : r.groupKey = Except.ok gk) :
    (r.sequence_id, r) ∈ clsRecs b gk := by
  induction b with
  | nil => simp at hm
  | cons f rest ih =>
    obtain ⟨k0, r0⟩ := f
    rcases List.mem_cons.mp hm with h | h
    · rw [Prod.mk.injEq] at h
      obtain ⟨hk, hr⟩ := h
      subst hr
      simp only [clsRecs, if_pos hg]
      exact List.mem_cons_self _ _
    · by_cases hc : r0.groupKey = Except.ok gk
      · simp only [clsRecs, if_pos hc]
        exact List.mem_cons_of_mem _ (ih h)
      · simp only [clsRecs, if_neg hc]
        exact ih h

theorem groupGo_spec (b : Batch) :
    ∀ (acc : List (List String × Batch)),
    (b.map (fun e => (e : String × Record).2.sequence_id)).Nodup →
    (∀ e ∈ b, exceptOk (e : String × Record).2.groupKey = true) →
    (∀ p ∈ acc, ∀ e ∈ b,
      (e : String × Record).2.sequence_id ∉ Batch.keys (p : List String × Batch).2) →
    (gKeys acc).Nodup →
    ∃ gs, groupGo b acc = Except.ok gs ∧ (gKeys gs).Nodup ∧
      ∀ x, lookupG gs x =
        match lookupG acc x with
        | some gb => some (gb ++ clsRecs b x)
        | none => if clsRecs b x = [] then none else some (clsRecs b x) := by
  induction b with
  | nil =>
    intro acc _ _ _ hnd
    refine ⟨acc, rfl, hnd, ?_⟩
    intro x
    cases h : lookupG acc x with
    | none => simp [clsRecs]
    | some gb => simp [clsRecs]
  | cons e rest ih =>
    obtain ⟨k0, r⟩ := e
    intro acc hsn hok hfresh hnd
    obtain ⟨g, hg⟩ := exceptOk_exists (hok _ (List.mem_cons_self _ _))
    rw [List.map_cons, List.nodup_cons] at hsn
    have hstep : groupGo ((k0, r) :: rest) acc = groupGo rest (groupInsert acc g r) := by
      simp [groupGo, hg]
    have hok1 : ∀ e ∈ rest, exceptOk (e : String × Record).2.groupKey = true :=
      fun e he => hok e (List.mem_cons_of_mem _ he)
    have hfresh1 : ∀ p ∈ groupInsert acc g r, ∀ e ∈ rest,
        (e : String × Record).2.sequence_id ∉ Batch.keys (p : List String × Batch).2 := by
      intro p hp e he hc
      rcases mem_keys_groupInsert hp hc with h | h
      · obtain ⟨q, hq, hqi⟩ := h
        exact hfresh q hq e (List.mem_cons_of_mem _ he) hqi
      · exact hsn.1 (h ▸ List.mem_map_of_mem (fun e => (e : String × Record).2.sequence_id) he)
    have hnd1 := @gKeys_nodup_groupInsert acc g r hnd
    obtain ⟨gs, hrun, hand, hlook⟩ := ih (groupInsert acc g r) hsn.2 hok1 hfresh1 hnd1
    refine ⟨gs, by rw [hstep, hrun], hand, ?_⟩
    intro x
    rw [hlook x, groupInsert_lookup]
    by_cases hx : x = g
    · subst hx
      rw [if_pos rfl]
      have hcls : clsRecs ((k0, r) :: rest) x = (r.sequence_id, r) :: clsRecs rest x := by
        simp [clsRecs, hg]
      rw [hcls]
      cases hacc : lookupG acc x with
      | none =>
        simp only [Option.getD_none]
        have hadd : Batch.add ([] : Batch) r = [(r.sequence_id, r)] := rfl
        rw [hadd]
        simp
      | some gb =>
        have hmem := lookupG_mem hacc
        have hsid : r.sequence_id ∉ Batch.keys gb :=
          hfresh _ hmem _ (List.mem_cons_self _ _)
        simp only [Option.getD_some]
        rw [Batch.add_eq_append hsid]
        simp
    · rw [if_neg hx]
      have hcls : clsRecs ((k0, r) :: rest) x = clsRecs rest x := by
        have hne : ¬ (r.groupKey = Except.ok x) := by
          rw [hg]
          intro hc
          exact hx (Except.ok.inj hc).symm
        simp [clsRecs, hne]
      rw [hcls]

theorem groupBy_spec {b : Batch}
    (hsn : (b.map (fun e => (e : String × Record).2.sequence_id)).Nodup)
    (hok : ∀ e ∈ b, exceptOk (e : String × Record).2.groupKey = true) :
    ∃ gs, Batch.groupBy b = Except.ok gs ∧ (gKeys gs).Nodup ∧
      ∀ x, lookupG gs x = if clsRecs b x = [] then none else some (clsRecs b x) := by
  obtain ⟨gs, hrun, hnd, hlook⟩ := groupGo_spec b [] hsn hok (by simp) (by simp [gKeys])
  refine ⟨gs, hrun, hnd, ?_⟩
  intro x
  have h := hlook x
  simpa [lookupG] using h

theorem mem_unique_g {gs : List (List String × Batch)} (hnd : (gKeys gs).Nodup)
    {x : List String} {u v : Batch} (h1 : (x, u) ∈ gs) (h2 : (x, v) ∈ gs) : u = v := by
  have hu := lookupG_of_mem_nodup hnd h1
  have hv := lookupG_of_mem_nodup hnd h2
  rw [hu] at hv
  exact Option.some.inj hv

theorem seq_map_eq_keys {b : Batch}
    (hwf : ∀ e ∈ b, (e : String × Record).2.sequence_id = e.1) :
    b.map (fun e => (e : String × Record).2.sequence_id) = Batch.keys b := by
  induction b with
  | nil => rfl
  | cons e rest ih =>
    rw [List.map_cons, Batch.keys_cons, hwf e (List.mem_cons_self _ _),
      ih (fun e he => hwf e (List.mem_cons_of_mem _ he))]

/-- Claim C3: grouping a well-formed batch whose records all carry the
GROUP and COUNTRY fields yields a partition: every group batch is exactly
the entries of the batch with that group key, every entry of the batch
lies in some group batch, every entry of every group batch lies in the
batch, and an entry lies in only one group batch.  (The input batch is not
touched: `Batch.groupBy` only reads it.) -/
theorem c3_grouping_partition (b : Batch)
    (hwf : ∀ e ∈ b, (e : String × Record).2.sequence_id = e.1)
    (hkeys : (Batch.keys b).Nodup)
    (hok : ∀ e ∈ b, exceptOk (e : String × Record).2.groupKey = true) :
    ∃ gs, Batch.groupBy b = Except.ok gs ∧
      (gKeys gs).Nodup ∧
      (∀ p ∈ gs, (p : List String × Batch).2 = clsRecs b p.1 ∧ p.2 ≠ []) ∧
      (∀ e ∈ b, ∃ p, p ∈ gs ∧ e ∈ (p : List String × Batch).2) ∧
      (∀ p ∈ gs, ∀ e ∈ (p : List String × Batch).2, e ∈ b) ∧
      (∀ p q, p ∈ gs → q ∈ gs → ∀ e, e ∈ (p : List String × Batch).2 →
        e ∈ (q : List String × Batch).2 → p = q) := by
  have hsn : (b.map (fun e => (e : String × Record).2.sequence_id)).Nodup := by
    rw [seq_map_eq_keys hwf]
    exact hkeys
  obtain ⟨gs, hrun, hnd, hlook⟩ := groupBy_spec hsn hok
  have hentry : ∀ p ∈ gs, (p : List String × Batch).2 = clsRecs b p.1 ∧ p.2 ≠ [] := by
    intro p hp
    obtain ⟨x, gb⟩ := p
    have hl := lookupG_of_mem_nodup hnd hp
    rw [hlook x] at hl
    by_cases hc : clsRecs b x = []
    · rw [if_pos hc] at hl
      exact absurd hl (by simp)
    · rw [if_neg hc] at hl
      have hgb : gb = clsRecs b x := (Option.some.inj hl).symm
      exact ⟨hgb, by rw [hgb]; exact hc⟩
  refine ⟨gs, hrun, hnd, hentry, ?_, ?_, ?_⟩
  · intro e he
    obtain ⟨k, r⟩ := e
    obtain ⟨g, hg⟩ := exceptOk_exists (hok _ he)
    have hseq : r.sequence_id = k := hwf _ he
    have hmem : (r.sequence_id, r) ∈ clsRecs b g := mem_clsRecs_of he hg
    have hne : clsRecs b g ≠ [] := by
      intro hc
      rw [hc] at hmem
      simp at hmem
    have hl := hlook g
    rw [if_neg hne] at hl
    refine ⟨(g, clsRecs b g), lookupG_mem hl, ?_⟩
    show (k, r) ∈ clsRecs b g
    rw [← hseq]
    exact hmem
  · intro p hp e hep
    obtain ⟨e1, e2⟩ := e
    rw [(hentry p hp).1] at hep
    obtain ⟨k, hk, h1, h2⟩ := clsRecs_sub _ hep
    have hseq : e2.sequence_id = k := hwf _ hk
    have he1 : e1 = k := by
      rw [show e1 = e2.sequence_id from h1, hseq]
    rw [he1]
    exact hk
  · intro p q hp hq e hep heq
    rw [(hentry p hp).1] at hep
    rw [(hentry q hq).1] at heq
    obtain ⟨k1, hk1, h11, h12⟩ := clsRecs_sub _ hep
    obtain ⟨k2, hk2, h21, h22⟩ := clsRecs_sub _ heq
    have hkey : p.1 = q.1 := Except.ok.inj (h12.symm.trans h22)
    obtain ⟨p1, p2⟩ := p
    obtain ⟨q1, q2⟩ := q
    simp only at hkey
    subst hkey
    have := mem_unique_g hnd hp hq
    rw [this]

/-- A three-record batch with two groups, used as the C3 witness. -/
def c3ExampleBatch : Batch :=
  [("001", Record.create "001" [("GROUP", "G1"), ("COUNTRY", "US")]),
   ("002", Record.create "002" [("GROUP", "G2"), ("COUNTRY", "US")]),
   ("003", Record.create "003" [("GROUP", "G1"), ("COUNTRY", "US")])]

/-- Witness for C3 at a concrete three-record batch. -/
theorem c3_grouping_partition_witness :
    ((∀ e ∈ c3ExampleBatch, (e : String × Record).2.sequence_id = e.1) ∧
     (Batch.keys c3ExampleBatch).Nodup ∧
     (∀ e ∈ c3ExampleBatch, exceptOk (e : String × Record).2.groupKey = true)) ∧
    (∃ gs, Batch.groupBy c3ExampleBatch = Except.ok gs ∧
      (gKeys gs).Nodup ∧
      (∀ p ∈ gs, (p : List String × Batch).2 = clsRecs c3ExampleBatch p.1 ∧ p.2 ≠ []) ∧
      (∀ e ∈ c3ExampleBatch, ∃ p, p ∈ gs ∧ e ∈ (p : List String × Batch).2) ∧
      (∀ p ∈ gs, ∀ e ∈ (p : List String × Batch).2, e ∈ c3ExampleBatch) ∧
      (∀ p q, p ∈ gs → q ∈ gs → ∀ e, e ∈ (p : List String × Batch).2 →
        e ∈ (q : List String × Batch).2 → p = q)) :=
  ⟨⟨by decide, by decide, by decide⟩,
   c3_grouping_partition c3ExampleBatch (by decide) (by decide) (by decide)⟩

theorem fieldValues_error_shape (r : Record) : ∀ (fs : List String),
    (∀ vs, r.fieldValues fs ≠ Except.ok vs) →
    ∃ f, r.fieldValues fs = Except.error (Err.missingField f) ∧ f ∈ fs := by
  intro fs
  induction fs with
  | nil =>
    intro h
    exact absurd rfl (h [])
  | cons f fs ih =>
    intro h
    cases hl : lookupField r.fields f with
    | none =>
      refine ⟨f, ?_, List.mem_cons_self _ _⟩
      simp [Record.fieldValues, hl]
    | some v =>
      cases hv : Record.fieldValues r fs with
      | ok vs =>
        exfalso
        apply h (v :: vs)
        simp [Record.fieldValues, hl, hv]
      | error err =>
        have h2 : ∀ vs, r.fieldValues fs ≠ Except.ok vs := by
          intro vs hc
          rw [hv] at hc
          exact Except.noConfusion hc
        obtain ⟨f2, hf2, hm2⟩ := ih h2
        rw [hv] at hf2
        have he := Except.error.inj hf2
        refine ⟨f2, ?_, List.mem_cons_of_mem _ hm2⟩
        simp [Record.fieldValues, hl, hv, he]

theorem groupGo_error {b : Batch} : ∀ (acc : List (List String × Batch)),
    (∃ e ∈ b, exceptOk (e : String × Record).2.groupKey = false) →
    ∃ f, groupGo b acc = Except.error (Err.missingField f) ∧ f ∈ GROUP_BY_FIELDS := by
  induction b with
  | nil =>
    intro acc h
    obtain ⟨e, he, _⟩ := h
    simp at he
  | cons e0 rest ih =>
    obtain ⟨k0, r⟩ := e0
    intro acc h
    cases hg : r.groupKey with
    | error err =>
      have h2 : ∀ vs, r.fieldValues GROUP_BY_FIELDS ≠ Except.ok vs := by
        intro vs hc
        have hgk : r.groupKey = Except.ok vs := hc
        rw [hg] at hgk
        exact Except.noConfusion hgk
      obtain ⟨f, hf, hm⟩ := fieldValues_error_shape r GROUP_BY_FIELDS h2
      have hgf : r.groupKey = Except.error (Err.missingField f) := hf
      refine ⟨f, ?_, hm⟩
      simp [groupGo, hgf]
    | ok g =>
      have h2 : ∃ e ∈ rest, exceptOk (e : String × Record).2.groupKey = false := by
        obtain ⟨e, he, hfe⟩ := h
        rcases List.mem_cons.mp he with h0 | h0
        · exfalso
          rw [h0] at hfe
          simp [hg, exceptOk] at hfe
        · exact ⟨e, h0, hfe⟩
      obtain ⟨f, hf, hm⟩ := ih (groupInsert acc g r) h2
      refine ⟨f, ?_, hm⟩
      simp only [groupGo, hg]
      exact hf

/-- Claim C7: if some record of the batch lacks one of the group key
fields, grouping fails with a missing-field error naming a group field,
rather than producing a group map that omits the record. -/
theorem c7_grouping_missing_field (b : Batch)
    (h : ∃ e ∈ b, exceptOk (e : String × Record).2.groupKey = false) :
    ∃ f, Batch.groupBy b = Except.error (Err.missingField f) ∧ f ∈ GROUP_BY_FIELDS :=
  groupGo_error [] h

/-- A record lacking the GROUP field. -/
def c7ExampleBatch : Batch :=
  [("001", Record.create "001"
      [("STREET", "1 Elm"), ("CITY", "A"), ("ZIP", "0"), ("COUNTRY", "US")])]

/-- Witness for C7 at a batch whose record lacks GROUP. -/
theorem c7_grouping_missing_field_witness :
    (∃ e ∈ c7ExampleBatch, exceptOk (e : String × Record).2.groupKey = false) ∧
    (∃ f, Batch.groupBy c7ExampleBatch = Except.error (Err.missingField f) ∧
      f ∈ GROUP_BY_FIELDS) :=
  ⟨by decide, c7_grouping_missing_field c7ExampleBatch (by decide)⟩

/-! ### Serialization determinism -/

/-- Claim C9: `json.dump(..., indent=4, sort_keys=True)` is deterministic —
two batches with the same entries (in any dict order) serialize to
byte-identical text — and the top-level keys of the output are the
batch's sequence ids in ascending lexicographic order.  Both the
`final.json` dump and every per-group dump go through this one
serializer. -/
theorem c9_dump_deterministic (b1 b2 : Batch)
    (hkeys : (Batch.keys b1).Nodup)
    (hperm : List.Perm b1 b2) :
    Batch.dumpJson b1 = Batch.dumpJson b2 ∧
    List.Sorted (fun x y => strLe x y = true) ((sortByKey b1).map Prod.fst) ∧
    List.Perm ((sortByKey b1).map Prod.fst) (Batch.keys b1) := by
  have hp1 : List.Perm (sortByKey b1) b1 := List.perm_insertionSort _ _
  have hp2 : List.Perm (sortByKey b2) b2 := List.perm_insertionSort _ _
  have hs1 : List.Sorted (fun x y : String × Record => strLe x.1 y.1 = true)
      (sortByKey b1) := List.sorted_insertionSort _ _
  have hs2 : List.Sorted (fun x y : String × Record => strLe x.1 y.1 = true)
      (sortByKey b2) := List.sorted_insertionSort _ _
  have hknd1 : ((sortByKey b1).map Prod.fst).Nodup := by
    have := (hp1.map Prod.fst).nodup_iff
    exact this.mpr hkeys
  have hknd2 : ((sortByKey b2).map Prod.fst).Nodup := by
    have hkeys2 : (Batch.keys b2).Nodup := (hperm.map Prod.fst).nodup_iff.mp hkeys
    exact ((hp2.map Prod.fst).nodup_iff).mpr hkeys2
  have hne1 : List.Pairwise (fun x y : String × Record => x.1 ≠ y.1) (sortByKey b1) :=
    List.pairwise_map.mp hknd1
  have hne2 : List.Pairwise (fun x y : String × Record => x.1 ≠ y.1) (sortByKey b2) :=
    List.pairwise_map.mp hknd2
  have hlt1 : List.Sorted
      (fun x y : String × Record => strLe x.1 y.1 = true ∧ x.1 ≠ y.1) (sortByKey b1) :=
    hs1.and hne1
  have hlt2 : List.Sorted
      (fun x y : String × Record => strLe x.1 y.1 = true ∧ x.1 ≠ y.1) (sortByKey b2) :=
    hs2.and hne2
  have hpp : List.Perm (sortByKey b1) (sortByKey b2) :=
    hp1.trans (hperm.trans hp2.symm)
  have hsort_eq : sortByKey b1 = sortByKey b2 :=
    List.eq_of_perm_of_sorted hpp hlt1 hlt2
  refine ⟨?_, ?_, hp1.map Prod.fst⟩
  · unfold Batch.dumpJson
    rw [hsort_eq]
  · exact List.pairwise_map.mpr hs1

/-- Two orderings of the same two-record batch. -/
def c9BatchA : Batch :=
  [("002", Record.create "002" [("GROUP", "G1"), ("COUNTRY", "US")]),
   ("001", Record.create "001" [("GROUP", "G1"), ("COUNTRY", "US")])]

/-- The other ordering of the entries of `c9BatchA`. -/
def c9BatchB : Batch :=
  [("001", Record.create "001" [("GROUP", "G1"), ("COUNTRY", "US")]),
   ("002", Record.create "002" [("GROUP", "G1"), ("COUNTRY", "US")])]

/-- Witness for C9 at the two orderings of one batch. -/
theorem c9_dump_deterministic_witness :
    ((Batch.keys c9BatchA).Nodup ∧ List.Perm c9BatchA c9BatchB) ∧
    (Batch.dumpJson c9BatchA = Batch.dumpJson c9BatchB ∧
     List.Sorted (fun x y => strLe x y = true) ((sortByKey c9BatchA).map Prod.fst) ∧
     List.Perm ((sortByKey c9BatchA).map Prod.fst) (Batch.keys c9BatchA)) :=
  ⟨⟨by decide, List.Perm.swap _ _ _⟩,
   c9_dump_deterministic c9BatchA c9BatchB (by decide) (List.Perm.swap _ _ _)⟩
